import Mathlib

/-!
# Verification of the vespa array-store policy and mapping headers

Shallow embedding of

* `vespalib/datastore/compaction_strategy.h` (class `CompactionStrategy`),
* `searchlib/attribute/multi_value_mapping.h` (class `MultiValueMapping`),
* `storage/distributor/messagetracker.h` (class `MessageTracker`),
* `storage/distributor/bucketdb/bucketdbmetricupdater.h`
  (class `BucketDBMetricUpdater`),
* `vespalib/fastos/unix_file.h` (class `FastOS_UNIX_File`),

followed by the properties established for them.

## Floating point

`CompactionStrategy` stores its ratios as C++ `float` and evaluates its
threshold tests in `double`.  The embedding models IEEE-754 values exactly:
a value is NaN, a signed infinity or a signed finite number `m * 2 ^ e`, and
every operation the header uses (literal conversion, `double -> float`
narrowing, `float -> double` widening, `size_t -> double` conversion,
multiplication, `>` and `==`) is computed with integers and rounded to
nearest, ties to even, the default rounding mode; `double` expressions are
evaluated in binary64, without excess precision.
-/

namespace Vespa

set_option maxRecDepth 8192

/-! ## IEEE-754 values -/

/-- An IEEE-754 datum: NaN, a signed infinity, or the signed finite number
`(-1) ^ neg * m * 2 ^ e` (so both zeros are present, as `fin false 0 _` and
`fin true 0 _`). -/
inductive Fp where
  | nan : Fp
  | inf (neg : Bool) : Fp
  | fin (neg : Bool) (m : Nat) (e : Int) : Fp
deriving DecidableEq, Repr

/-- A binary interchange format: `prec` significand bits, finite values are
`m * 2 ^ e` with `m < 2 ^ prec` and `emin ≤ e ≤ emax`. -/
structure Format where
  prec : Nat
  emin : Int
  emax : Int
deriving DecidableEq, Repr

/-- C++ `float` on the supported platforms. -/
def binary32 : Format := ⟨24, -149, 104⟩

/-- C++ `double` on the supported platforms. -/
def binary64 : Format := ⟨53, -1074, 971⟩

/-- Number of binary digits of `n`, by structural recursion on `fuel`. -/
def bitLenAux : Nat → Nat → Nat
  | 0, _ => 0
  | fuel + 1, n => if n = 0 then 0 else bitLenAux fuel (n / 2) + 1

/-- Number of binary digits of `n` (`0` for `0`). -/
def bitLen (n : Nat) : Nat := bitLenAux n n

/-- The fraction `n / (d * 2 ^ s)` written with natural numerator and
denominator. -/
def scale (n d : Nat) (s : Int) : Nat × Nat :=
  if 0 ≤ s then (n, d * 2 ^ s.toNat) else (n * 2 ^ (-s).toNat, d)

/-- Round the exact non-negative rational `n / d` (`0 < d`) with sign `neg` to
format `f`: round to nearest, ties to even, with gradual underflow and
overflow to infinity. -/
def roundRat (f : Format) (neg : Bool) (n d : Nat) : Fp :=
  if n = 0 then .fin neg 0 f.emin else
  let s0 : Int := max ((bitLen n : Int) - (bitLen d : Int) - f.prec) f.emin
  let s : Int := if 2 ^ f.prec ≤ (scale n d s0).1 / (scale n d s0).2 then s0 + 1 else s0
  let N := (scale n d s).1
  let D := (scale n d s).2
  let q := N / D
  let r := N % D
  let m := if 2 * r < D then q else if D < 2 * r then q + 1 else if q % 2 = 0 then q else q + 1
  let s1 : Int := if m = 2 ^ f.prec then s + 1 else s
  let m1 : Nat := if m = 2 ^ f.prec then 2 ^ (f.prec - 1) else m
  if f.emax < s1 then .inf neg else .fin neg m1 s1

namespace Fp

/-- Round the finite number `(-1) ^ neg * m * 2 ^ e` to format `f`. -/
def roundDyadic (f : Format) (neg : Bool) (m : Nat) (e : Int) : Fp :=
  roundRat f neg (m * 2 ^ e.toNat) (2 ^ (-e).toNat)

/-- The value of a decimal floating literal `n / d` (for instance `0.05` is
`literal 5 100`): a `double`. -/
def literal (n d : Nat) : Fp := roundRat binary64 false n d

/-- The binary32 number nearest to `n / d`. -/
def nearestFloat (n d : Nat) : Fp := roundRat binary32 false n d

/-- Implicit conversion `double -> float`. -/
def doubleToFloat : Fp → Fp
  | .nan => .nan
  | .inf neg => .inf neg
  | .fin neg m e => roundDyadic binary32 neg m e

/-- Implicit conversion `float -> double`: every binary32 value is a binary64
value, so the datum is unchanged. -/
def floatToDouble (x : Fp) : Fp := x

/-- Implicit conversion `size_t -> double`. -/
def ofSizeT (n : Nat) : Fp := roundRat binary64 false n 1

/-- Signed integer numerators of two finite values over the common exponent
`min e1 e2`. -/
def align (a : Bool) (m1 : Nat) (e1 : Int) (b : Bool) (m2 : Nat) (e2 : Int) : Int × Int :=
  let e := min e1 e2
  let x : Int := ((m1 * 2 ^ (e1 - e).toNat : Nat) : Int)
  let y : Int := ((m2 * 2 ^ (e2 - e).toNat : Nat) : Int)
  (if a then -x else x, if b then -y else y)

/-- IEEE `x < y`: false when either side is NaN; the two zeros compare equal. -/
def lt : Fp → Fp → Bool
  | .nan, _ => false
  | _, .nan => false
  | .inf a, .inf b => a && !b
  | .inf a, .fin _ _ _ => a
  | .fin _ _ _, .inf b => !b
  | .fin a m1 e1, .fin b m2 e2 => decide ((align a m1 e1 b m2 e2).1 < (align a m1 e1 b m2 e2).2)

/-- C++ `x > y` on floating operands. -/
def gt (x y : Fp) : Bool := lt y x

/-- C++ `x == y` on floating operands: false when either side is NaN; the two
zeros are equal. -/
def eq : Fp → Fp → Bool
  | .nan, _ => false
  | _, .nan => false
  | .inf a, .inf b => a == b
  | .inf _, .fin _ _ _ => false
  | .fin _ _ _, .inf _ => false
  | .fin a m1 e1, .fin b m2 e2 => decide ((align a m1 e1 b m2 e2).1 = (align a m1 e1 b m2 e2).2)

/-- C++ `x * y` on `double` operands. -/
def mul : Fp → Fp → Fp
  | .nan, _ => .nan
  | _, .nan => .nan
  | .inf a, .inf b => .inf (xor a b)
  | .inf a, .fin b m _ => if m = 0 then .nan else .inf (xor a b)
  | .fin a m _, .inf b => if m = 0 then .nan else .inf (xor a b)
  | .fin a m1 e1, .fin b m2 e2 => roundDyadic binary64 (xor a b) (m1 * m2) (e1 + e2)

/-- The exact rational value of a finite datum. -/
def toRat : Fp → Option ℚ
  | .fin neg m e => some ((if neg then -1 else 1) * (m : ℚ) * (2 : ℚ) ^ e)
  | _ => none

end Fp

/-! ## `vespalib/datastore/compaction_strategy.h` -/

/-- Class `CompactionStrategy`: three `float` fields and one `uint32_t`. -/
structure CompactionStrategy where
  _maxDeadBytesRatio : Fp
  _maxDeadAddressSpaceRatio : Fp
  _active_buffers_ratio : Fp
  _max_buffers : Nat
deriving DecidableEq, Repr

namespace CompactionStrategy

/-- `static constexpr size_t DEAD_BYTES_SLACK = 0x10000u;` -/
def DEAD_BYTES_SLACK : Nat := 0x10000

/-- `static constexpr size_t DEAD_ADDRESS_SPACE_SLACK = 0x10000u;` -/
def DEAD_ADDRESS_SPACE_SLACK : Nat := 0x10000

/-- Constructor `CompactionStrategy()`. -/
def new : CompactionStrategy where
  _maxDeadBytesRatio := Fp.doubleToFloat (Fp.literal 5 100)
  _maxDeadAddressSpaceRatio := Fp.doubleToFloat (Fp.literal 2 10)
  _active_buffers_ratio := Fp.doubleToFloat (Fp.literal 1 10)
  _max_buffers := 1

/-- Constructor `CompactionStrategy(float maxDeadBytesRatio, float maxDeadAddressSpaceRatio)`. -/
def new2 (maxDeadBytesRatio maxDeadAddressSpaceRatio : Fp) : CompactionStrategy where
  _maxDeadBytesRatio := maxDeadBytesRatio
  _maxDeadAddressSpaceRatio := maxDeadAddressSpaceRatio
  _active_buffers_ratio := Fp.doubleToFloat (Fp.literal 1 10)
  _max_buffers := 1

/-- Constructor `CompactionStrategy(float, float, uint32_t max_buffers, float active_buffers_ratio)`. -/
def new4 (maxDeadBytesRatio maxDeadAddressSpaceRatio : Fp) (max_buffers : Nat)
    (active_buffers_ratio : Fp) : CompactionStrategy where
  _maxDeadBytesRatio := maxDeadBytesRatio
  _maxDeadAddressSpaceRatio := maxDeadAddressSpaceRatio
  _active_buffers_ratio := active_buffers_ratio
  _max_buffers := max_buffers

/-- Getter `double getMaxDeadBytesRatio() const`. -/
def getMaxDeadBytesRatio (s : CompactionStrategy) : Fp := Fp.floatToDouble s._maxDeadBytesRatio

/-- Getter `double getMaxDeadAddressSpaceRatio() const`. -/
def getMaxDeadAddressSpaceRatio (s : CompactionStrategy) : Fp :=
  Fp.floatToDouble s._maxDeadAddressSpaceRatio

/-- Getter `uint32_t get_max_buffers() const`. -/
def get_max_buffers (s : CompactionStrategy) : Nat := s._max_buffers

/-- Getter `double get_active_buffers_ratio() const`. -/
def get_active_buffers_ratio (s : CompactionStrategy) : Fp :=
  Fp.floatToDouble s._active_buffers_ratio

/-- Private `bool should_compact_memory(size_t used_bytes, size_t dead_bytes) const`:
both operands of `>` are converted to `double`. -/
def should_compact_memory (s : CompactionStrategy) (used_bytes dead_bytes : Nat) : Bool :=
  decide (DEAD_BYTES_SLACK ≤ dead_bytes) &&
    Fp.gt (Fp.ofSizeT dead_bytes) (Fp.mul (Fp.ofSizeT used_bytes) s.getMaxDeadBytesRatio)

/-- Private `bool should_compact_address_space(size_t used_address_space,
size_t dead_address_space) const`. -/
def should_compact_address_space (s : CompactionStrategy)
    (used_address_space dead_address_space : Nat) : Bool :=
  decide (DEAD_ADDRESS_SPACE_SLACK ≤ dead_address_space) &&
    Fp.gt (Fp.ofSizeT dead_address_space)
      (Fp.mul (Fp.ofSizeT used_address_space) s.getMaxDeadAddressSpaceRatio)

/-- Member `bool operator==(const CompactionStrategy & rhs) const`: the `float`
fields are compared with the floating `==`. -/
def eq (lhs rhs : CompactionStrategy) : Bool :=
  Fp.eq lhs._maxDeadBytesRatio rhs._maxDeadBytesRatio &&
    Fp.eq lhs._maxDeadAddressSpaceRatio rhs._maxDeadAddressSpaceRatio &&
    decide (lhs._max_buffers = rhs._max_buffers) &&
    Fp.eq lhs._active_buffers_ratio rhs._active_buffers_ratio

/-- Member `bool operator!=(const CompactionStrategy & rhs) const`. -/
def ne (lhs rhs : CompactionStrategy) : Bool := !(eq lhs rhs)

end CompactionStrategy

/-! ## The array store behind `MultiValueMapping`

`multi_value_mapping.h` includes `array_store.h` and `multi_value_mapping_base.h`
and defines `set` and `compact_worst` out of line; the store is therefore
modelled from the specification of the repository. -/

/-- Modelled from the spec: `EntryRef` of the absent `entryref.h`, a buffer
identifier and an offset; all access goes through the store that issued it. -/
structure EntryRef where
  buffer_id : Nat
  offset : Nat
deriving DecidableEq, Repr

/-- Modelled from the spec: the reserved `EntryRef` value denoting empty/unset
(offset 0 doubles as the null entry). -/
def EntryRef.null : EntryRef := ⟨0, 0⟩

/-- Modelled from the spec: the life of a buffer slot of the absent array store:
created by `add`, marked dead by `remove` while it waits on the hold list,
physically destroyed by a reclaim pass. -/
inductive SlotState where
  | live : SlotState
  | dead : SlotState
  | reclaimed : SlotState
deriving DecidableEq, Repr

/-- Modelled from the spec: one entry of a buffer of the absent array store. -/
structure Slot (T : Type) where
  values : List T
  state : SlotState
deriving Repr

/-- Modelled from the spec: `Buffer` of the absent data store,
`{size_class, capacity, entries[], dead_entries, dead_bytes}`; `entries` holds
the committed slots, the offset of a slot being its position. -/
structure Buffer (T : Type) where
  size_class : Nat
  capacity : Nat
  entries : List (Slot T)
  dead_entries : Nat
  dead_bytes : Nat
deriving Repr

/-- Modelled from the spec: a `Hold` of the absent array store, a retired
reference and the generation it was retired at. -/
structure Hold where
  ref : EntryRef
  generation_when_retired : Nat
deriving DecidableEq, Repr

/-- Modelled from the spec: configuration of the absent array store.  Arrays of
length `1 .. max_array_length` have a fixed size class each, longer ones go to
the large class; every buffer has `buffer_capacity` slots of which the first
`reserved_entries` are reserved; `can_allocate id` tells whether the backing
allocator and the bounded reference namespace grant buffer number `id`;
`elem_size` is the byte size of one element. -/
structure ArrayStoreConfig where
  max_array_length : Nat
  buffer_capacity : Nat
  reserved_entries : Nat
  elem_size : Nat
  can_allocate : Nat → Bool

/-- Modelled from the spec: `ArrayStore` of the absent `array_store.h`, a pool
of buffers (the buffer identifier is the position in `buffers`), the active
buffer of each size class, the hold list and the current generation.  The
first `stamped_holds` holds have been stamped by an `assign_generation` call,
the others were created since the previous call. -/
structure ArrayStore (T : Type) where
  cfg : ArrayStoreConfig
  buffers : List (Buffer T)
  active : Nat → Option Nat
  holds : List Hold
  stamped_holds : Nat
  current_generation : Nat

namespace ArrayStoreConfig

/-- Modelled from the spec: the size class `ArrayStore::add` picks for an array
of length `len` (class `0` is the large/dynamic class). -/
def size_class (cfg : ArrayStoreConfig) (len : Nat) : Nat :=
  if len ≤ cfg.max_array_length then len else 0

/-- Modelled from the spec: a newly opened buffer of the absent data store,
after `initialize_reserved_entries` has filled the reserved low offsets with the
canonical empty value. -/
def fresh_buffer (cfg : ArrayStoreConfig) (T : Type) (cls : Nat) : Buffer T where
  size_class := cls
  capacity := cfg.buffer_capacity
  entries := List.replicate cfg.reserved_entries ⟨[], SlotState.live⟩
  dead_entries := 0
  dead_bytes := 0

end ArrayStoreConfig

namespace Buffer

/-- Modelled from the spec: appending one array to a buffer of the absent data
store. -/
def append {T : Type} (b : Buffer T) (values : List T) : Buffer T :=
  { b with entries := b.entries ++ [⟨values, SlotState.live⟩] }

/-- Modelled from the spec: marking the slot at `offset` of a buffer of the
absent data store dead and accounting for it. -/
def mark_dead {T : Type} (b : Buffer T) (offset : Nat) (slot : Slot T) (elem_size : Nat) :
    Buffer T :=
  { b with
    entries := b.entries.set offset { slot with state := SlotState.dead }
    dead_entries := b.dead_entries + 1
    dead_bytes := b.dead_bytes + slot.values.length * elem_size }

end Buffer

namespace ArrayStore

variable {T : Type}

/-- Modelled from the spec: the constructor of the absent `ArrayStore`, a store
without buffers at generation 0. -/
def empty (cfg : ArrayStoreConfig) (T : Type) : ArrayStore T where
  cfg := cfg
  buffers := []
  active := fun _ => none
  holds := []
  stamped_holds := 0
  current_generation := 0

/-- Modelled from the spec: the active buffer of size class `cls` in the absent
array store, when there is one and it is not full. -/
def active_with_room (s : ArrayStore T) (cls : Nat) : Option (Nat × Buffer T) :=
  match s.active cls with
  | none => none
  | some id =>
    match s.buffers[id]? with
    | none => none
    | some b => if b.entries.length < b.capacity then some (id, b) else none

/-- Modelled from the spec: `ArrayStore::add` of the absent `array_store.h`.  A
zero-length array is the shared reserved entry; otherwise the array is appended
to the active buffer of its size class, a new buffer being opened when that one
is full.  `none` is the allocation-failure condition: the call is abandoned. -/
def add (s : ArrayStore T) (values : List T) : Option (EntryRef × ArrayStore T) :=
  match values with
  | [] => some (EntryRef.null, s)
  | _ :: _ =>
    let cls := s.cfg.size_class values.length
    match s.active_with_room cls with
    | some (id, b) =>
      some (⟨id, b.entries.length⟩, { s with buffers := s.buffers.set id (b.append values) })
    | none =>
      let id := s.buffers.length
      if s.cfg.can_allocate id then
        some (⟨id, s.cfg.reserved_entries⟩,
          { s with
            buffers := s.buffers ++ [(s.cfg.fresh_buffer T cls).append values]
            active := fun c => if c = cls then some id else s.active c })
      else none

/-- Modelled from the spec: `ArrayStore::get` of the absent `array_store.h`.
The reserved reference reads as the empty array; any other reference is decoded
into buffer and offset.  `none` is the undefined behaviour of dereferencing a
reference that designates no slot or a physically reclaimed one. -/
def get (s : ArrayStore T) (ref : EntryRef) : Option (List T) :=
  if ref = EntryRef.null then some [] else
  match s.buffers[ref.buffer_id]? with
  | none => none
  | some b =>
    match b.entries[ref.offset]? with
    | none => none
    | some slot => if slot.state = SlotState.reclaimed then none else some slot.values

/-- Modelled from the spec: `ArrayStore::remove` of the absent `array_store.h`:
marks the slot dead, increments the dead counters of its buffer and enqueues a
hold tagged with the current generation; nothing is freed.  Reserved entries
are never retired, and a reference that designates no live slot (a caller
error) leaves the store as it is. -/
def remove (s : ArrayStore T) (ref : EntryRef) : ArrayStore T :=
  if ref.offset < s.cfg.reserved_entries then s else
  match s.buffers[ref.buffer_id]? with
  | none => s
  | some b =>
    match b.entries[ref.offset]? with
    | none => s
    | some slot =>
      if slot.state = SlotState.live then
        { s with
          buffers := s.buffers.set ref.buffer_id (b.mark_dead ref.offset slot s.cfg.elem_size)
          holds := s.holds ++ [⟨ref, s.current_generation⟩] }
      else s

/-- A sequence of `add` calls on the store, in order: the final store and, for
every call that produced a reference, the values passed and the reference
returned.  A call that ends in allocation failure is abandoned and leaves the
store as it was. -/
def add_all (s : ArrayStore T) : List (List T) → ArrayStore T × List (List T × EntryRef)
  | [] => (s, [])
  | v :: vs =>
    match s.add v with
    | none => s.add_all vs
    | some (r, s1) => ((s1.add_all vs).1, (v, r) :: (s1.add_all vs).2)

/-- Store invariant: at least one low offset is reserved and every buffer holds
its reserved entries. -/
def WF (s : ArrayStore T) : Prop :=
  0 < s.cfg.reserved_entries ∧ ∀ b ∈ s.buffers, s.cfg.reserved_entries ≤ b.entries.length

end ArrayStore

/-! ## `searchlib/attribute/multi_value_mapping.h` -/

/-- Class `MultiValueMapping<ElemT, RefT>`: the member `_store` and the index
array `_indices` inherited from `MultiValueMappingBase`. -/
structure MultiValueMapping (T : Type) where
  _indices : List EntryRef
  _store : ArrayStore T

namespace MultiValueMapping

variable {T : Type}

/-- Modelled from the spec: `MultiValueMappingBase::acquire_entry_ref` of the
absent `multi_value_mapping_base.h`, the reference held in `indices[docId]`;
`none` is the fatal out-of-bounds identifier. -/
def acquire_entry_ref (m : MultiValueMapping T) (docId : Nat) : Option EntryRef :=
  m._indices[docId]?

/-- Member `ConstArrayRef get(uint32_t docId) const
{ return _store.get(acquire_entry_ref(docId)); }`. -/
def get (m : MultiValueMapping T) (docId : Nat) : Option (List T) :=
  match m.acquire_entry_ref docId with
  | none => none
  | some ref => m._store.get ref

/-- Member `ConstArrayRef getDataForIdx(EntryRef idx) const { return _store.get(idx); }`. -/
def getDataForIdx (m : MultiValueMapping T) (idx : EntryRef) : Option (List T) :=
  m._store.get idx

/-- Modelled from the spec: `MultiValueMapping::set`, declared in the header, its
body being in the absent `multi_value_mapping.hpp`:
`new_ref = store.add(values); old_ref = indices[id]; indices[id] = new_ref;
store.remove(old_ref)`.  `none` is an abandoned call (allocation failure, or the
fatal out-of-bounds identifier). -/
def set (m : MultiValueMapping T) (docId : Nat) (values : List T) :
    Option (MultiValueMapping T) :=
  match m._store.add values with
  | none => none
  | some (new_ref, store1) =>
    match m._indices[docId]? with
    | none => none
    | some old_ref =>
      some { _indices := m._indices.set docId new_ref, _store := store1.remove old_ref }

/-- Member `bool consider_compact(const CompactionStrategy &compactionStrategy)`:
`if (_store.consider_compact()) { compact_worst(compactionStrategy); return true; }
return false;`.  The two callees are not in the header and are parameters:
`store_consider_compact` is `ArrayStore::consider_compact() const` and
`compact_worst` is the out-of-line member `compact_worst`.  The result is the
returned flag and the mapping after the call. -/
def consider_compact (store_consider_compact : ArrayStore T → Bool)
    (compact_worst : CompactionStrategy → MultiValueMapping T → MultiValueMapping T)
    (m : MultiValueMapping T) (compactionStrategy : CompactionStrategy) :
    Bool × MultiValueMapping T :=
  if store_consider_compact m._store then
    (true, compact_worst compactionStrategy m)
  else
    (false, m)

end MultiValueMapping

/-! ## Concrete instances -/

/-- A small store configuration: fixed size classes for lengths 1 to 4, three
slots per buffer of which one is reserved, 4-byte elements, eight buffers. -/
def example_config : ArrayStoreConfig where
  max_array_length := 4
  buffer_capacity := 3
  reserved_entries := 1
  elem_size := 4
  can_allocate := fun id => decide (id < 8)

/-- The store after `add([1,2])`, `add([3])`, `add([])` on a new store. -/
def example_store : ArrayStore Nat :=
  ((ArrayStore.empty example_config Nat).add_all [[1, 2], [3], []]).1

/-- A mapping over `example_store` with three identifiers, holding `[1,2]`,
`[3]` and the empty array. -/
def example_mapping : MultiValueMapping Nat where
  _indices := [⟨0, 1⟩, ⟨1, 1⟩, EntryRef.null]
  _store := example_store

/-! ## Hold list, generations and compaction of the array store -/

/-- Modelled from the spec: `GenerationHandler` of the absent
`generationhandler.h`: the current generation and the generations published by
the outstanding guards. -/
structure GenerationHandler where
  current_generation : Nat
  guards : List Nat
deriving DecidableEq, Repr

namespace GenerationHandler

/-- Modelled from the spec: `GenerationHandler::guard()`, entering a read
publishes the current generation as observed. -/
def guard (h : GenerationHandler) : GenerationHandler :=
  { h with guards := h.current_generation :: h.guards }

/-- Modelled from the spec: release of a guard of the absent generation handler
that was taken at generation `g`. -/
def release (h : GenerationHandler) (g : Nat) : GenerationHandler :=
  { h with guards := h.guards.erase g }

/-- Modelled from the spec: the writer moving the absent generation handler to
the next generation. -/
def inc_generation (h : GenerationHandler) : GenerationHandler :=
  { h with current_generation := h.current_generation + 1 }

/-- Modelled from the spec: `GenerationHandler::get_oldest_used_generation()`,
the minimum over the outstanding guards (the current generation when there is
none). -/
def get_oldest_used_generation (h : GenerationHandler) : Nat :=
  h.guards.foldr min h.current_generation

end GenerationHandler

namespace ArrayStore

variable {T : Type}

/-- Modelled from the spec: `ArrayStore::assign_generation` of the absent
`array_store.h`: stamps all holds created since the previous call with `gen`.
The store takes `gen` as its current generation. -/
def assign_generation (s : ArrayStore T) (gen : Nat) : ArrayStore T :=
  { s with
    holds := s.holds.take s.stamped_holds ++
      (s.holds.drop s.stamped_holds).map (fun h => { h with generation_when_retired := gen })
    stamped_holds := s.holds.length
    current_generation := gen }

/-- Modelled from the spec: physical destruction, in the absent array store, of
the slot a hold designates. -/
def destroy (s : ArrayStore T) (ref : EntryRef) : ArrayStore T :=
  match s.buffers[ref.buffer_id]? with
  | none => s
  | some b =>
    match b.entries[ref.offset]? with
    | none => s
    | some _ =>
      { s with
        buffers := s.buffers.set ref.buffer_id
          { b with entries := b.entries.set ref.offset ⟨[], SlotState.reclaimed⟩ } }

/-- Modelled from the spec: the holds of the absent array store that
`reclaim_memory(oldest_used_gen)` destroys, those stamped with a generation
strictly older than `oldest_used_gen`. -/
def reclaimable (s : ArrayStore T) (oldest_used_gen : Nat) : List Hold :=
  (s.holds.take s.stamped_holds).filter
    (fun h => decide (h.generation_when_retired < oldest_used_gen))

/-- Modelled from the spec: `ArrayStore::reclaim_memory` of the absent
`array_store.h`: physically destroys all holds stamped with a generation strictly
older than `oldest_used_gen` and drops them from the hold list. -/
def reclaim_memory (s : ArrayStore T) (oldest_used_gen : Nat) : ArrayStore T :=
  { (s.reclaimable oldest_used_gen).foldl (fun acc h => acc.destroy h.ref) s with
    holds := (s.holds.take s.stamped_holds).filter
        (fun h => !decide (h.generation_when_retired < oldest_used_gen)) ++
      s.holds.drop s.stamped_holds
    stamped_holds := ((s.holds.take s.stamped_holds).filter
        (fun h => !decide (h.generation_when_retired < oldest_used_gen))).length }

/-- Modelled from the spec: whether `ref` designates a live entry of the absent
array store that is not a reserved one. -/
def is_live (s : ArrayStore T) (ref : EntryRef) : Bool :=
  decide (s.cfg.reserved_entries ≤ ref.offset) &&
    match s.buffers[ref.buffer_id]? with
    | none => false
    | some b =>
      match b.entries[ref.offset]? with
      | none => false
      | some slot => decide (slot.state = SlotState.live)

/-- Modelled from the spec: migration of one live entry during compaction of the
absent array store: its values are copied into the target buffer (the active
buffer of the size class) and the source entry is retired as a hold.  `none`
when the entry is not live or the copy cannot be allocated. -/
def move (s : ArrayStore T) (ref : EntryRef) : Option (EntryRef × ArrayStore T) :=
  if s.is_live ref then
    match s.get ref with
    | none => none
    | some v =>
      match s.add v with
      | none => none
      | some (new_ref, s1) => some (new_ref, s1.remove ref)
  else none

/-- Modelled from the spec: opening, in the absent array store, a new buffer of
size class `cls` as the target of a compaction; it becomes the active buffer of
the class.  `none` is the allocation-failure condition. -/
def open_target (s : ArrayStore T) (cls : Nat) : Option (ArrayStore T) :=
  if s.cfg.can_allocate s.buffers.length then
    some { s with
      buffers := s.buffers ++ [s.cfg.fresh_buffer T cls]
      active := fun c => if c = cls then some s.buffers.length else s.active c }
  else none

/-- Modelled from the spec: migration of the entries `refs` of the absent array
store in order; `remap` sends every reference issued before the compaction to
the reference that now designates its values. -/
def move_all (s : ArrayStore T) (remap : EntryRef → EntryRef) :
    List EntryRef → ArrayStore T × (EntryRef → EntryRef)
  | [] => (s, remap)
  | ref :: refs =>
    match s.move ref with
    | none => move_all s remap refs
    | some (new_ref, s1) =>
      move_all s1 (fun r => if remap r = ref then new_ref else remap r) refs

/-- Modelled from the spec: compaction of buffer `bid` of the absent array
store: a target buffer is opened and every live entry of the buffer is migrated
to it, the source entries being retired as holds.  Nothing happens when the
buffer does not exist or the target cannot be allocated. -/
def compact_buffer (s : ArrayStore T) (remap : EntryRef → EntryRef) (bid : Nat) :
    ArrayStore T × (EntryRef → EntryRef) :=
  match s.buffers[bid]? with
  | none => (s, remap)
  | some b =>
    match s.open_target b.size_class with
    | none => (s, remap)
    | some s1 => s1.move_all remap ((List.range b.entries.length).map (fun o => ⟨bid, o⟩))

/-- Modelled from the spec: compaction of the buffers `bids` of the absent array
store, one after the other. -/
def compact_buffers (s : ArrayStore T) (remap : EntryRef → EntryRef) :
    List Nat → ArrayStore T × (EntryRef → EntryRef)
  | [] => (s, remap)
  | bid :: bids =>
    compact_buffers (s.compact_buffer remap bid).1 (s.compact_buffer remap bid).2 bids

/-- Modelled from the spec: `ArrayStore::compact_worst` of the absent
`array_store.h`.  The choice of the worst buffers (ranking by dead-byte and
dead-address-space ratio, at most `max_buffers` of them, bounded by the active
buffers ratio) is the parameter `select_worst`; the selected buffers are
compacted and the remapping of references is returned with the store. -/
def compact_worst (select_worst : CompactionStrategy → ArrayStore T → List Nat)
    (compaction_strategy : CompactionStrategy) (s : ArrayStore T) :
    ArrayStore T × (EntryRef → EntryRef) :=
  s.compact_buffers (fun r => r) (select_worst compaction_strategy s)

end ArrayStore

namespace MultiValueMapping

variable {T : Type}

/-- Member `void assign_generation(generation_t current_gen)
{ _store.assign_generation(current_gen); }`; the callee of the absent
`array_store.h` is the parameter `store_assign_generation`. -/
def assign_generation (store_assign_generation : ArrayStore T → Nat → ArrayStore T)
    (m : MultiValueMapping T) (current_gen : Nat) : MultiValueMapping T :=
  { m with _store := store_assign_generation m._store current_gen }

/-- Member `void reclaim_memory(generation_t oldest_used_gen)
{ _store.reclaim_memory(oldest_used_gen); }`; the callee of the absent
`array_store.h` is the parameter `store_reclaim_memory`. -/
def reclaim_memory (store_reclaim_memory : ArrayStore T → Nat → ArrayStore T)
    (m : MultiValueMapping T) (oldest_used_gen : Nat) : MultiValueMapping T :=
  { m with _store := store_reclaim_memory m._store oldest_used_gen }

/-- Modelled from the spec: `MultiValueMapping::compact_worst`, declared in the
header, its body being in the absent `multi_value_mapping.hpp`: the store
compacts its worst buffers and every index entry is switched to the remapped
reference. -/
def compact_worst (select_worst : CompactionStrategy → ArrayStore T → List Nat)
    (compaction_strategy : CompactionStrategy) (m : MultiValueMapping T) :
    MultiValueMapping T where
  _indices := m._indices.map (m._store.compact_worst select_worst compaction_strategy).2
  _store := (m._store.compact_worst select_worst compaction_strategy).1

end MultiValueMapping

/-! ## `storage/distributor/messagetracker.h` -/

/-- Nested class `MessageTracker::ToSend`; the command type
`std::shared_ptr<api::BucketCommand>` is the parameter `Cmd`. -/
structure MessageTracker.ToSend (Cmd : Type) where
  _msg : Cmd
  _target : Nat

/-- Class `MessageTracker`: `_commandQueue` and the map `_sentMessages` from
message id to target node, kept as an association list. -/
structure MessageTracker (Cmd : Type) where
  _commandQueue : List (MessageTracker.ToSend Cmd)
  _sentMessages : List (Nat × Nat)

namespace MessageTracker

variable {Cmd : Type}

/-- Member `void queueCommand(std::shared_ptr<api::BucketCommand> msg, uint16_t target)`. -/
def queueCommand (t : MessageTracker Cmd) (msg : Cmd) (target : Nat) : MessageTracker Cmd :=
  { t with _commandQueue := t._commandQueue ++ [⟨msg, target⟩] }

/-- Member `bool finished() const noexcept { return _sentMessages.empty(); }`. -/
def finished (t : MessageTracker Cmd) : Bool := t._sentMessages.isEmpty

end MessageTracker

/-! ## `storage/distributor/bucketdb/bucketdbmetricupdater.h` -/

/-- Nested struct `BucketDBMetricUpdater::Stats`; the types `vespalib::MemoryUsage`
and `MinReplicaMap` are declared elsewhere and are parameters. -/
structure BucketDBMetricUpdater.Stats (MemoryUsage MinReplicaMap : Type) where
  _docCount : Nat
  _byteCount : Nat
  _tooFewCopies : Nat
  _tooManyCopies : Nat
  _noTrusted : Nat
  _totalBuckets : Nat
  _mutable_db_mem_usage : MemoryUsage
  _read_only_db_mem_usage : MemoryUsage
  _minBucketReplica : MinReplicaMap

/-- Class `BucketDBMetricUpdater`; the configuration enum `ReplicaCountingMode`
is the parameter `Mode`. -/
structure BucketDBMetricUpdater (MemoryUsage MinReplicaMap Mode : Type) where
  _workingStats : BucketDBMetricUpdater.Stats MemoryUsage MinReplicaMap
  _lastCompleteStats : BucketDBMetricUpdater.Stats MemoryUsage MinReplicaMap
  _replicaCountingMode : Mode
  _hasCompleteStats : Bool

namespace BucketDBMetricUpdater

variable {MemoryUsage MinReplicaMap Mode Entry : Type}

/-- The bodies that `bucketdbmetricupdater.h` only declares, as far as they are
not fixed by its documentation: the all-zero `Stats()`, the initial counting
mode, and what `visit` and `update_db_memory_usage` do to the working
statistics. -/
structure Bodies (MemoryUsage MinReplicaMap Mode Entry : Type) where
  zero_stats : Stats MemoryUsage MinReplicaMap
  initial_mode : Mode
  visit_stats : Entry → Nat → Mode → Stats MemoryUsage MinReplicaMap →
    Stats MemoryUsage MinReplicaMap
  usage_stats : MemoryUsage → Bool → Stats MemoryUsage MinReplicaMap →
    Stats MemoryUsage MinReplicaMap

/-- Modelled from the spec: the constructor `BucketDBMetricUpdater()` of the
absent `bucketdbmetricupdater.cpp`; by the documentation of `hasCompletedRound`
no round is complete on a new updater. -/
def new (bodies : Bodies MemoryUsage MinReplicaMap Mode Entry) :
    BucketDBMetricUpdater MemoryUsage MinReplicaMap Mode where
  _workingStats := bodies.zero_stats
  _lastCompleteStats := bodies.zero_stats
  _replicaCountingMode := bodies.initial_mode
  _hasCompleteStats := false

/-- Member `void setMinimumReplicaCountingMode(ReplicaCountingMode mode) noexcept
{ _replicaCountingMode = mode; }`. -/
def setMinimumReplicaCountingMode (u : BucketDBMetricUpdater MemoryUsage MinReplicaMap Mode)
    (mode : Mode) : BucketDBMetricUpdater MemoryUsage MinReplicaMap Mode :=
  { u with _replicaCountingMode := mode }

/-- Member `ReplicaCountingMode getMinimumReplicaCountingMode() const noexcept`. -/
def getMinimumReplicaCountingMode (u : BucketDBMetricUpdater MemoryUsage MinReplicaMap Mode) :
    Mode := u._replicaCountingMode

/-- Modelled from the spec: `BucketDBMetricUpdater::visit` of the absent
`bucketdbmetricupdater.cpp`, which accounts one database entry in the statistics
of the current iteration. -/
def visit (bodies : Bodies MemoryUsage MinReplicaMap Mode Entry)
    (u : BucketDBMetricUpdater MemoryUsage MinReplicaMap Mode) (e : Entry) (redundancy : Nat) :
    BucketDBMetricUpdater MemoryUsage MinReplicaMap Mode :=
  { u with _workingStats := bodies.visit_stats e redundancy u._replicaCountingMode u._workingStats }

/-- Modelled from the spec: `BucketDBMetricUpdater::reset` of the absent
`bucketdbmetricupdater.cpp`, documented as: reset all values in current working
state to zero. -/
def reset (bodies : Bodies MemoryUsage MinReplicaMap Mode Entry)
    (u : BucketDBMetricUpdater MemoryUsage MinReplicaMap Mode) :
    BucketDBMetricUpdater MemoryUsage MinReplicaMap Mode :=
  { u with _workingStats := bodies.zero_stats }

/-- Modelled from the spec: `BucketDBMetricUpdater::completeRound` of the absent
`bucketdbmetricupdater.cpp`, documented as: called after an entire DB iteration
round has been completed, updates last complete state with current working
state and, if `resetWorkingStats`, resets current working state to all zero. -/
def completeRound (bodies : Bodies MemoryUsage MinReplicaMap Mode Entry)
    (u : BucketDBMetricUpdater MemoryUsage MinReplicaMap Mode) (resetWorkingStats : Bool) :
    BucketDBMetricUpdater MemoryUsage MinReplicaMap Mode :=
  { u with
    _lastCompleteStats := u._workingStats
    _hasCompleteStats := true
    _workingStats := if resetWorkingStats then bodies.zero_stats else u._workingStats }

/-- Modelled from the spec: `BucketDBMetricUpdater::update_db_memory_usage` of
the absent `bucketdbmetricupdater.cpp`, which records a memory usage in the
statistics of the current iteration. -/
def update_db_memory_usage (bodies : Bodies MemoryUsage MinReplicaMap Mode Entry)
    (u : BucketDBMetricUpdater MemoryUsage MinReplicaMap Mode) (mem_usage : MemoryUsage)
    (is_mutable_db : Bool) : BucketDBMetricUpdater MemoryUsage MinReplicaMap Mode :=
  { u with _workingStats := bodies.usage_stats mem_usage is_mutable_db u._workingStats }

/-- Member `bool hasCompletedRound() const noexcept { return _hasCompleteStats; }`. -/
def hasCompletedRound (u : BucketDBMetricUpdater MemoryUsage MinReplicaMap Mode) : Bool :=
  u._hasCompleteStats

/-- Member `const Stats & getLastCompleteStats() const noexcept`. -/
def getLastCompleteStats (u : BucketDBMetricUpdater MemoryUsage MinReplicaMap Mode) :
    Stats MemoryUsage MinReplicaMap := u._lastCompleteStats

/-- A call of one of the public mutators of `BucketDBMetricUpdater`. -/
inductive Call (MemoryUsage Mode Entry : Type) where
  | setMinimumReplicaCountingMode (mode : Mode) : Call MemoryUsage Mode Entry
  | visit (e : Entry) (redundancy : Nat) : Call MemoryUsage Mode Entry
  | reset : Call MemoryUsage Mode Entry
  | completeRound (resetWorkingStats : Bool) : Call MemoryUsage Mode Entry
  | update_db_memory_usage (mem_usage : MemoryUsage) (is_mutable_db : Bool) :
      Call MemoryUsage Mode Entry

/-- Whether the call is a `completeRound`. -/
def Call.isCompleteRound : Call MemoryUsage Mode Entry → Bool
  | .completeRound _ => true
  | _ => false

/-- The updater after one call. -/
def call (bodies : Bodies MemoryUsage MinReplicaMap Mode Entry)
    (u : BucketDBMetricUpdater MemoryUsage MinReplicaMap Mode) :
    Call MemoryUsage Mode Entry → BucketDBMetricUpdater MemoryUsage MinReplicaMap Mode
  | .setMinimumReplicaCountingMode mode => u.setMinimumReplicaCountingMode mode
  | .visit e redundancy => u.visit bodies e redundancy
  | .reset => u.reset bodies
  | .completeRound resetWorkingStats => u.completeRound bodies resetWorkingStats
  | .update_db_memory_usage mem_usage is_mutable_db =>
    u.update_db_memory_usage bodies mem_usage is_mutable_db

/-- The updater after a sequence of calls, in order. -/
def calls (bodies : Bodies MemoryUsage MinReplicaMap Mode Entry)
    (u : BucketDBMetricUpdater MemoryUsage MinReplicaMap Mode)
    (cs : List (Call MemoryUsage Mode Entry)) :
    BucketDBMetricUpdater MemoryUsage MinReplicaMap Mode :=
  cs.foldl (call bodies) u

end BucketDBMetricUpdater

namespace Fp

/-- Two floating data denote the same number: both finite with the same exact
value (so the two zeros agree), or the same infinity; NaN is no number and
agrees with nothing. -/
def sameNumber : Fp → Fp → Prop
  | .fin a m1 e1, .fin b m2 e2 => toRat (.fin a m1 e1) = toRat (.fin b m2 e2)
  | .inf a, .inf b => a = b
  | _, _ => False

end Fp

/-! ## Further concrete instances -/

/-- The mapping `example_mapping` after `set(0, [9])`, `assign_generation(3)` on
its store: the entry `[1,2]` is retired and its hold is stamped with 3. -/
def example_retired : MultiValueMapping Nat :=
  match example_mapping.set 0 [9] with
  | none => example_mapping
  | some m => m.assign_generation ArrayStore.assign_generation 3

/-- A selection of buffers to compact that always names buffer 0. -/
def select_first (_ : CompactionStrategy) (_ : ArrayStore Nat) : List Nat := [0]

/-! ## `vespalib/fastos/unix_file.h` -/

/-- Class `FastOS_UNIX_File`, its protected members: the address `_mmapbase`
(a `void *`, 0 being `nullptr`), the `size_t` `_mmaplen`, and the three settings
`_filedes`, `_mmapFlags`, `_mmapEnabled`. -/
structure FastOS_UNIX_File where
  _mmapbase : Nat
  _mmaplen : Nat
  _filedes : Int
  _mmapFlags : Int
  _mmapEnabled : Bool
deriving DecidableEq, Repr

namespace FastOS_UNIX_File

/-- The null pointer. -/
def nullptr : Nat := 0

/-- The conversion `int64_t(x)` of a `size_t`: the value modulo `2 ^ 64` read as
a two's complement number. -/
def int64_of_size_t (x : Nat) : Int :=
  if x % 2 ^ 64 < 2 ^ 63 then ((x % 2 ^ 64 : Nat) : Int) else ((x % 2 ^ 64 : Nat) : Int) - 2 ^ 64

/-- The address `static_cast<char *>(base) + offset` on a 64-bit machine. -/
def ptr_add (base : Nat) (offset : Int) : Nat := (((base : Int) + offset) % 2 ^ 64).toNat

/-- Constructor `FastOS_UNIX_File(const char *filename=nullptr)`. -/
def new : FastOS_UNIX_File where
  _mmapbase := nullptr
  _mmaplen := 0
  _filedes := -1
  _mmapFlags := 0
  _mmapEnabled := false

/-- Member `bool IsOpened() const override { return _filedes >= 0; }`. -/
def IsOpened (f : FastOS_UNIX_File) : Bool := decide (0 ≤ f._filedes)

/-- Member `void enableMemoryMap(int flags) override`. -/
def enableMemoryMap (f : FastOS_UNIX_File) (flags : Int) : FastOS_UNIX_File :=
  { f with _mmapEnabled := true, _mmapFlags := flags }

/-- Member `void *MemoryMapPtr(int64_t position) const override`. -/
def MemoryMapPtr (f : FastOS_UNIX_File) (position : Int) : Nat :=
  if f._mmapbase ≠ nullptr then
    if position < int64_of_size_t f._mmaplen then
      ptr_add f._mmapbase position
    else
      nullptr
  else
    nullptr

/-- Member `bool IsMemoryMapped() const override { return _mmapbase != nullptr; }`. -/
def IsMemoryMapped (f : FastOS_UNIX_File) : Bool := decide (f._mmapbase ≠ nullptr)

end FastOS_UNIX_File

/-- A file mapped at address 4096 with 100 mapped bytes. -/
def example_file : FastOS_UNIX_File where
  _mmapbase := 4096
  _mmaplen := 100
  _filedes := 3
  _mmapFlags := 0
  _mmapEnabled := true

namespace Fp

/-- C++ `x <= y` on floating operands. -/
def le (x y : Fp) : Bool := lt x y || eq x y

/-- Positive zero, the value of the literal `0.0`. -/
def zero : Fp := .fin false 0 0

end Fp

namespace Fp

/-- The value of a datum in the rationals extended by `⊤`: the exact value of a
finite datum, `⊤` for the others.  It orders the data that are finite or `+∞`. -/
def ext : Fp → WithTop ℚ
  | .fin neg m e => (((if neg then -1 else 1) * (m : ℚ) * (2 : ℚ) ^ e : ℚ) : WithTop ℚ)
  | _ => ⊤

/-- The datum is finite or `+∞`. -/
def IsUpper : Fp → Prop
  | .fin _ _ _ => True
  | .inf neg => neg = false
  | .nan => False

end Fp

/-- The integer `m` is `t` rounded to nearest, ties to even. -/
def IsRNE (t : ℚ) (m : Nat) : Prop :=
  (m : ℚ) - 1 / 2 ≤ t ∧ t ≤ (m : ℚ) + 1 / 2 ∧
    (t = (m : ℚ) + 1 / 2 → m % 2 = 0) ∧ (t = (m : ℚ) - 1 / 2 → m % 2 = 0)

/-- The rational `V` is `x` rounded to the unbounded-above format with `prec`
significand bits and least exponent `emin`. -/
def RoundsTo (f : Format) (x V : ℚ) : Prop :=
  ∃ (m : Nat) (s : Int), V = (m : ℚ) * (2 : ℚ) ^ s ∧ f.emin ≤ s ∧
    x / (2 : ℚ) ^ s < (2 : ℚ) ^ (f.prec : Int) ∧
    ((2 : ℚ) ^ ((f.prec : Int) - 1) ≤ x / (2 : ℚ) ^ s ∨ s = f.emin) ∧
    IsRNE (x / (2 : ℚ) ^ s) m

/-- The exponent `roundRat` chooses for `n / d`. -/
def roundExponent (f : Format) (n d : Nat) : Int :=
  if 2 ^ f.prec ≤ (scale n d (max ((bitLen n : Int) - (bitLen d : Int) - f.prec) f.emin)).1 /
      (scale n d (max ((bitLen n : Int) - (bitLen d : Int) - f.prec) f.emin)).2
  then max ((bitLen n : Int) - (bitLen d : Int) - f.prec) f.emin + 1
  else max ((bitLen n : Int) - (bitLen d : Int) - f.prec) f.emin

/-- The integer nearest to `N / D`, ties to even, as `roundRat` computes it. -/
def roundInt (N D : Nat) : Nat :=
  if 2 * (N % D) < D then N / D else if D < 2 * (N % D) then N / D + 1
  else if (N / D) % 2 = 0 then N / D else N / D + 1

/-- The last step of `roundRat`: renormalisation of a significand that reached
`2 ^ prec`, and overflow to infinity. -/
def roundFinish (f : Format) (neg : Bool) (m : Nat) (s : Int) : Fp :=
  if f.emax < (if m = 2 ^ f.prec then s + 1 else s) then .inf neg
  else .fin neg (if m = 2 ^ f.prec then 2 ^ (f.prec - 1) else m)
    (if m = 2 ^ f.prec then s + 1 else s)

namespace Fp

/-- The datum is a finite binary32 number (a finite C++ `float`): at most 24
significand bits and an exponent in the range of the format. -/
def IsFloat : Fp → Prop
  | .fin _ m e => m < 2 ^ 24 ∧ -149 ≤ e ∧ e ≤ 104
  | _ => False

/-- The datum `x` is a `float` nearest to the rational `t`: it is a finite
binary32 number, and no finite binary32 number is closer to `t`. -/
def IsNearestFloat (x : Fp) (t : ℚ) : Prop :=
  IsFloat x ∧ ∃ v : ℚ, toRat x = some v ∧
    ∀ (y : Fp) (w : ℚ), IsFloat y → toRat y = some w → |v - t| ≤ |w - t|

end Fp

/-! ## Properties of `CompactionStrategy` -/

open CompactionStrategy

/-- C2, as stated, fails: for the strategy with max dead bytes ratio 0.05,
`should_compact_memory(1000, 60)` is not true. -/
theorem scenario_60_dead_bytes_not_true :
    ¬ (CompactionStrategy.new.should_compact_memory 1000 60 = true) := by
  decide

/-- C2, amended: for a strategy with max dead bytes ratio 0.05,
`should_compact_memory(1000, 60)` is false: the ratio test `60 > 1000 * 0.05`
holds, but 60 dead bytes are below `DEAD_BYTES_SLACK`. -/
theorem blocked_by_slack_1000_60 (s : CompactionStrategy)
    (h : s._maxDeadBytesRatio = Fp.doubleToFloat (Fp.literal 5 100)) :
    s.should_compact_memory 1000 60 = false ∧
      Fp.gt (Fp.ofSizeT 60) (Fp.mul (Fp.ofSizeT 1000) s.getMaxDeadBytesRatio) = true ∧
      60 < DEAD_BYTES_SLACK := by
  simp only [should_compact_memory, getMaxDeadBytesRatio, h]
  decide

/-- The default strategy has ratio 0.05 and is blocked by the slack at (1000, 60). -/
theorem blocked_by_slack_1000_60_witness :
    CompactionStrategy.new._maxDeadBytesRatio = Fp.doubleToFloat (Fp.literal 5 100) ∧
      (CompactionStrategy.new.should_compact_memory 1000 60 = false ∧
        Fp.gt (Fp.ofSizeT 60)
          (Fp.mul (Fp.ofSizeT 1000) CompactionStrategy.new.getMaxDeadBytesRatio) = true ∧
        60 < DEAD_BYTES_SLACK) :=
  ⟨rfl, blocked_by_slack_1000_60 CompactionStrategy.new rfl⟩

/-- C3: for a strategy with max dead bytes ratio 0.05,
`should_compact_memory(1000, 40)` is false; already the ratio test
`40 > 1000 * 0.05` fails. -/
theorem ratio_test_fails_1000_40 (s : CompactionStrategy)
    (h : s._maxDeadBytesRatio = Fp.doubleToFloat (Fp.literal 5 100)) :
    s.should_compact_memory 1000 40 = false ∧
      Fp.gt (Fp.ofSizeT 40) (Fp.mul (Fp.ofSizeT 1000) s.getMaxDeadBytesRatio) = false := by
  simp only [should_compact_memory, getMaxDeadBytesRatio, h]
  decide

/-- The default strategy has ratio 0.05 and does not compact at (1000, 40). -/
theorem ratio_test_fails_1000_40_witness :
    CompactionStrategy.new._maxDeadBytesRatio = Fp.doubleToFloat (Fp.literal 5 100) ∧
      (CompactionStrategy.new.should_compact_memory 1000 40 = false ∧
        Fp.gt (Fp.ofSizeT 40)
          (Fp.mul (Fp.ofSizeT 1000) CompactionStrategy.new.getMaxDeadBytesRatio) = false) :=
  ⟨rfl, ratio_test_fails_1000_40 CompactionStrategy.new rfl⟩

/-! ## Lemmas on the array store -/

namespace ArrayStore

variable {T : Type}

theorem active_with_room_some (s : ArrayStore T) (cls id : Nat) (b : Buffer T)
    (h : s.active_with_room cls = some (id, b)) : s.buffers[id]? = some b := by
  unfold active_with_room at h
  split at h
  · simp at h
  · split at h
    · simp at h
    · split at h
      · simp only [Option.some.injEq, Prod.mk.injEq] at h
        obtain ⟨rfl, rfl⟩ := h
        assumption
      · simp at h

theorem ref_ne_null (id off : Nat) (h : 0 < off) : (⟨id, off⟩ : EntryRef) ≠ EntryRef.null := by
  intro hn
  have hoff : off = 0 := congrArg EntryRef.offset hn
  omega

/-- Every outcome of `add` on a non-empty array: an append to an existing
buffer, or a newly opened buffer. -/
theorem add_cases (s s1 : ArrayStore T) (v : List T) (r : EntryRef)
    (h : s.add v = some (r, s1)) :
    (v = [] ∧ r = EntryRef.null ∧ s1 = s) ∨
    (∃ id b, s.buffers[id]? = some b ∧ r = ⟨id, b.entries.length⟩ ∧
        s1.cfg = s.cfg ∧ s1.buffers = s.buffers.set id (b.append v)) ∨
    (r = ⟨s.buffers.length, s.cfg.reserved_entries⟩ ∧ s1.cfg = s.cfg ∧
        ∃ cls, s1.buffers = s.buffers ++ [(s.cfg.fresh_buffer T cls).append v]) := by
  unfold add at h
  split at h
  · simp only [Option.some.injEq, Prod.mk.injEq] at h
    obtain ⟨rfl, rfl⟩ := h
    exact Or.inl ⟨rfl, rfl, rfl⟩
  · rename_i x xs
    simp only at h
    split at h
    · rename_i id b hroom
      simp only [Option.some.injEq, Prod.mk.injEq] at h
      obtain ⟨rfl, rfl⟩ := h
      exact Or.inr (Or.inl ⟨id, b, active_with_room_some s _ id b hroom, rfl, rfl, rfl⟩)
    · split at h
      · simp only [Option.some.injEq, Prod.mk.injEq] at h
        obtain ⟨rfl, rfl⟩ := h
        exact Or.inr (Or.inr ⟨rfl, rfl, _, rfl⟩)
      · simp at h

theorem get_add_new (s s1 : ArrayStore T) (v : List T) (r : EntryRef) (hwf : s.WF)
    (h : s.add v = some (r, s1)) : s1.get r = some v := by
  rcases add_cases s s1 v r h with ⟨rfl, rfl, rfl⟩ | ⟨id, b, hb, rfl, _, hbuf⟩ | ⟨rfl, _, cls, hbuf⟩
  · simp [get]
  · have hid : id < s.buffers.length := by
      rcases List.getElem?_eq_some_iff.mp hb with ⟨hlt, _⟩
      exact hlt
    have hlen : 0 < b.entries.length := by
      have h1 := hwf.2 b (List.getElem?_mem hb)
      have h2 := hwf.1
      omega
    simp [get, ref_ne_null id _ hlen, hbuf, hid, Buffer.append]
  · simp [get, ref_ne_null _ _ hwf.1, hbuf, Buffer.append, ArrayStoreConfig.fresh_buffer]

theorem get_add_old (s s1 : ArrayStore T) (w v : List T) (r0 r : EntryRef)
    (h : s.add w = some (r0, s1)) (hg : s.get r = some v) : s1.get r = some v := by
  rcases add_cases s s1 w r0 h with ⟨_, _, rfl⟩ | ⟨id, b, hb, _, _, hbuf⟩ | ⟨_, _, cls, hbuf⟩
  · exact hg
  · unfold get at hg ⊢
    split at hg
    · rename_i hnull
      simpa [hnull] using hg
    · rename_i hnull
      simp only [hnull, if_false]
      rw [hbuf]
      by_cases hid : id = r.buffer_id
      · rw [← hid] at hg ⊢
        rw [hb] at hg
        have hlt : id < s.buffers.length := by
          rcases List.getElem?_eq_some_iff.mp hb with ⟨hlt, _⟩
          exact hlt
        rw [List.getElem?_set_self hlt]
        simp only [Buffer.append]
        simp only at hg
        split at hg
        · simp at hg
        · rename_i slot hslot
          have hoff : r.offset < b.entries.length := by
            rcases List.getElem?_eq_some_iff.mp hslot with ⟨hlt2, _⟩
            exact hlt2
          rw [List.getElem?_append_left hoff, hslot]
          exact hg
      · rw [List.getElem?_set_ne hid]
        exact hg
  · unfold get at hg ⊢
    split at hg
    · rename_i hnull
      simpa [hnull] using hg
    · rename_i hnull
      simp only [hnull, if_false]
      rw [hbuf]
      split at hg
      · simp at hg
      · rename_i b0 hb0
        have hlt : r.buffer_id < s.buffers.length := by
          rcases List.getElem?_eq_some_iff.mp hb0 with ⟨hlt, _⟩
          exact hlt
        rw [List.getElem?_append_left hlt, hb0]
        exact hg

theorem WF_add (s s1 : ArrayStore T) (v : List T) (r : EntryRef) (hwf : s.WF)
    (h : s.add v = some (r, s1)) : s1.WF := by
  rcases add_cases s s1 v r h with ⟨_, _, rfl⟩ | ⟨id, b, hb, _, hcfg, hbuf⟩ | ⟨_, hcfg, cls, hbuf⟩
  · exact hwf
  · refine ⟨by rw [hcfg]; exact hwf.1, ?_⟩
    intro b1 hb1
    rw [hcfg]
    rw [hbuf] at hb1
    rcases List.mem_or_eq_of_mem_set hb1 with hmem | rfl
    · exact hwf.2 b1 hmem
    · have := hwf.2 b (List.getElem?_mem hb)
      simp only [Buffer.append, List.length_append, List.length_singleton]
      omega
  · refine ⟨by rw [hcfg]; exact hwf.1, ?_⟩
    intro b1 hb1
    rw [hcfg]
    rw [hbuf] at hb1
    rcases List.mem_append.mp hb1 with hmem | hmem
    · exact hwf.2 b1 hmem
    · rw [List.mem_singleton] at hmem
      subst hmem
      simp [Buffer.append, ArrayStoreConfig.fresh_buffer]

theorem get_remove (s : ArrayStore T) (r0 r : EntryRef) (v : List T)
    (hg : s.get r = some v) : (s.remove r0).get r = some v := by
  unfold remove
  split
  · exact hg
  · split
    · exact hg
    · rename_i b hb
      split
      · exact hg
      · rename_i slot hslot
        split
        · rename_i hlive
          unfold get at hg ⊢
          split at hg
          · rename_i hnull
            simpa [hnull] using hg
          · rename_i hnull
            simp only [hnull, if_false]
            by_cases hid : r0.buffer_id = r.buffer_id
            · have hlt : r0.buffer_id < s.buffers.length := by
                rcases List.getElem?_eq_some_iff.mp hb with ⟨hlt, _⟩
                exact hlt
              rw [← hid, List.getElem?_set_self hlt]
              rw [← hid, hb] at hg
              simp only [Buffer.mark_dead]
              simp only at hg
              by_cases hoff : r0.offset = r.offset
              · have hlt2 : r0.offset < b.entries.length := by
                  rcases List.getElem?_eq_some_iff.mp hslot with ⟨hlt2, _⟩
                  exact hlt2
                rw [← hoff, List.getElem?_set_self hlt2]
                rw [← hoff, hslot] at hg
                simp only [hlive] at hg
                simpa using hg
              · rw [List.getElem?_set_ne hoff]
                exact hg
            · rw [List.getElem?_set_ne hid]
              exact hg
        · exact hg

theorem add_all_get_old (vs : List (List T)) :
    ∀ (s : ArrayStore T) (r : EntryRef) (v : List T),
      s.get r = some v → (s.add_all vs).1.get r = some v := by
  induction vs with
  | nil => intro s r v hg; exact hg
  | cons w ws ih =>
    intro s r v hg
    unfold add_all
    split
    · exact ih s r v hg
    · rename_i r0 s1 hadd
      exact ih s1 r v (get_add_old s s1 w v r0 r hadd hg)

theorem add_all_get (vs : List (List T)) :
    ∀ (s : ArrayStore T), s.WF →
      ∀ v r, (v, r) ∈ (s.add_all vs).2 → (s.add_all vs).1.get r = some v := by
  induction vs with
  | nil => intro s _ v r hmem; simp [add_all] at hmem
  | cons w ws ih =>
    intro s hwf v r hmem
    unfold add_all at hmem ⊢
    split at hmem
    · exact ih s hwf v r hmem
    · rename_i r0 s1 hadd
      simp only [List.mem_cons, Prod.mk.injEq] at hmem
      rcases hmem with ⟨rfl, rfl⟩ | hmem
      · exact add_all_get_old ws s1 r v (get_add_new s s1 v r hwf hadd)
      · exact ih s1 (WF_add s s1 w r0 hwf hadd) v r hmem

theorem empty_example_WF : (ArrayStore.empty example_config Nat).WF := by
  unfold WF
  decide

theorem example_store_WF : example_store.WF := by
  unfold WF
  decide

end ArrayStore
/-! ## Properties of `MultiValueMapping` and its store -/

namespace MultiValueMapping

variable {T : Type}

/-- C6: for a document id within the index array, `get(docId)` is what the store
returns for the reference held in `indices[docId]`, which is also
`getDataForIdx(indices[docId])`. -/
theorem get_eq_store_get (m : MultiValueMapping T) (docId : Nat)
    (h : docId < m._indices.length) :
    m.get docId = m._store.get m._indices[docId] ∧
      m.get docId = m.getDataForIdx m._indices[docId] := by
  have hidx : m._indices[docId]? = some m._indices[docId] := List.getElem?_eq_getElem h
  simp [get, getDataForIdx, acquire_entry_ref, hidx]

/-- Identifier 1 of `example_mapping` reads through the reference it holds. -/
theorem get_eq_store_get_witness :
    1 < example_mapping._indices.length ∧
      example_mapping.get 1 = example_mapping._store.get ⟨1, 1⟩ ∧
      example_mapping.get 1 = example_mapping.getDataForIdx ⟨1, 1⟩ :=
  ⟨by decide, get_eq_store_get example_mapping 1 (by decide)⟩

/-- C7: for an identifier within the index array, `set(id, v)` (when the store
can place `v`) stores `v` under the reference returned by `add`, switches
`indices[id]` to it, retires the old reference, and a following `get(id)`
returns exactly `v`. -/
theorem get_set (m : MultiValueMapping T) (docId : Nat) (v : List T)
    (hwf : m._store.WF) (hid : docId < m._indices.length)
    (hadd : (m._store.add v).isSome = true) :
    ∃ new_ref store1 m1,
      m._store.add v = some (new_ref, store1) ∧
      m.set docId v = some m1 ∧
      m1._indices = m._indices.set docId new_ref ∧
      m1._store = store1.remove m._indices[docId] ∧
      m1.get docId = some v := by
  obtain ⟨⟨new_ref, store1⟩, hsome⟩ := Option.isSome_iff_exists.mp hadd
  have hidx : m._indices[docId]? = some m._indices[docId] := List.getElem?_eq_getElem hid
  refine ⟨new_ref, store1,
    { _indices := m._indices.set docId new_ref, _store := store1.remove m._indices[docId] },
    hsome, ?_, rfl, rfl, ?_⟩
  · simp [set, hsome, hidx]
  · have hnew : store1.get new_ref = some v := ArrayStore.get_add_new m._store store1 v new_ref hwf hsome
    simp only [get, acquire_entry_ref, List.getElem?_set_self hid]
    exact ArrayStore.get_remove store1 _ new_ref v hnew

/-- Setting identifier 0 of `example_mapping` to `[9]` succeeds and reads back `[9]`. -/
theorem get_set_witness :
    example_mapping._store.WF ∧ 0 < example_mapping._indices.length ∧
      (example_mapping._store.add [9]).isSome = true ∧
      ∃ new_ref store1 m1,
        example_mapping._store.add [9] = some (new_ref, store1) ∧
        example_mapping.set 0 [9] = some m1 ∧
        m1._indices = example_mapping._indices.set 0 new_ref ∧
        m1._store = store1.remove ⟨0, 1⟩ ∧
        m1.get 0 = some [9] :=
  ⟨ArrayStore.example_store_WF, by decide, by decide,
    get_set example_mapping 0 [9] ArrayStore.example_store_WF (by decide) (by decide)⟩

/-- C8: `consider_compact(strategy)` returns true exactly when the store reports
that compaction is due; in that case the mapping after the call is the result
of one `compact_worst(strategy)` on the mapping before it, and otherwise the
mapping is unchanged. -/
theorem consider_compact_spec (store_consider_compact : ArrayStore T → Bool)
    (compact_worst : CompactionStrategy → MultiValueMapping T → MultiValueMapping T)
    (m : MultiValueMapping T) (strategy : CompactionStrategy) :
    ((m.consider_compact store_consider_compact compact_worst strategy).1 = true ↔
        store_consider_compact m._store = true) ∧
      (m.consider_compact store_consider_compact compact_worst strategy).2 =
        (if store_consider_compact m._store = true then compact_worst strategy m else m) := by
  unfold consider_compact
  cases store_consider_compact m._store <;> simp

end MultiValueMapping

namespace ArrayStore

variable {T : Type}

/-- C9: after any sequence of `add` calls on a well-formed store, `get(ref)`
returns exactly the values passed to the `add` call that produced `ref`, for
every reference produced in the sequence. -/
theorem get_after_adds (s : ArrayStore T) (vs : List (List T)) (hwf : s.WF)
    (v : List T) (r : EntryRef) (hmem : (v, r) ∈ (s.add_all vs).2) :
    (s.add_all vs).1.get r = some v :=
  add_all_get vs s hwf v r hmem

/-- On a new store, after `add([1,2])`, `add([3])`,
`add([])`, `add([4,5])`, `add([6,7])`, the reference of the first call still
reads `[1,2]`. -/
theorem get_after_adds_witness :
    (ArrayStore.empty example_config Nat).WF ∧
      (([1, 2], (⟨0, 1⟩ : EntryRef)) ∈
        ((ArrayStore.empty example_config Nat).add_all [[1, 2], [3], [], [4, 5], [6, 7]]).2) ∧
      ((ArrayStore.empty example_config Nat).add_all [[1, 2], [3], [], [4, 5], [6, 7]]).1.get
        ⟨0, 1⟩ = some [1, 2] :=
  ⟨empty_example_WF, by decide,
    get_after_adds (ArrayStore.empty example_config Nat) [[1, 2], [3], [], [4, 5], [6, 7]]
      empty_example_WF [1, 2] ⟨0, 1⟩ (by decide)⟩

/-- C10: adding a zero-length array allocates nothing: on any two stores the
call returns the same reference and leaves the store as it was, and `get` on
that reference returns the empty array in every store. -/
theorem add_empty_shared (s1 s2 : ArrayStore T) :
    ∃ r : EntryRef, s1.add [] = some (r, s1) ∧ s2.add [] = some (r, s2) ∧
      ∀ s : ArrayStore T, s.get r = some [] :=
  ⟨EntryRef.null, rfl, rfl, fun s => by simp [get]⟩

end ArrayStore

/-! ## Lemmas on hold-list reclamation -/

namespace GenerationHandler

theorem foldr_min_le_init (gs : List Nat) (c : Nat) : gs.foldr min c ≤ c := by
  induction gs with
  | nil => exact Nat.le_refl c
  | cons g gs ih => exact Nat.le_trans (Nat.min_le_right _ _) ih

theorem foldr_min_le_mem (gs : List Nat) (c g : Nat) (hg : g ∈ gs) : gs.foldr min c ≤ g := by
  induction gs with
  | nil => simp at hg
  | cons g0 gs ih =>
    rcases List.mem_cons.mp hg with rfl | hmem
    · exact Nat.min_le_left _ _
    · exact Nat.le_trans (Nat.min_le_right _ _) (ih hmem)

theorem oldest_used_le_guard (h : GenerationHandler) (g : Nat) (hg : g ∈ h.guards) :
    h.get_oldest_used_generation ≤ g :=
  foldr_min_le_mem h.guards h.current_generation g hg

end GenerationHandler

namespace ArrayStore

variable {T : Type}

theorem get_destroy_ne (s : ArrayStore T) (r0 r : EntryRef) (hne : r0 ≠ r) :
    (s.destroy r0).get r = s.get r := by
  unfold destroy
  split
  · rfl
  · rename_i b hb
    split
    · rfl
    · rename_i slot hslot
      unfold get
      by_cases hnull : r = EntryRef.null
      · simp [hnull]
      · simp only [hnull, if_false]
        by_cases hid : r0.buffer_id = r.buffer_id
        · have hlt : r0.buffer_id < s.buffers.length := by
            rcases List.getElem?_eq_some_iff.mp hb with ⟨hlt, _⟩
            exact hlt
          have hoff : r0.offset ≠ r.offset := by
            intro hoff
            apply hne
            cases r0
            cases r
            simp only at hid hoff
            subst hid
            subst hoff
            rfl
          rw [← hid, List.getElem?_set_self hlt, hb]
          simp only [List.getElem?_set_ne hoff]
        · rw [List.getElem?_set_ne hid]

theorem get_foldl_destroy (hs : List Hold) :
    ∀ (s : ArrayStore T) (r : EntryRef), (∀ h ∈ hs, h.ref ≠ r) →
      (hs.foldl (fun acc h => acc.destroy h.ref) s).get r = s.get r := by
  induction hs with
  | nil => intro s r _; rfl
  | cons h0 hs ih =>
    intro s r hall
    simp only [List.foldl_cons]
    rw [ih (s.destroy h0.ref) r (fun h hh => hall h (List.mem_cons_of_mem _ hh))]
    exact get_destroy_ne s h0.ref r (hall h0 (List.mem_cons_self _ _))

theorem get_reclaim_memory (s : ArrayStore T) (og : Nat) (r : EntryRef) :
    (s.reclaim_memory og).get r =
      ((s.reclaimable og).foldl (fun acc h => acc.destroy h.ref) s).get r := rfl

theorem reclaimable_mem (s : ArrayStore T) (og : Nat) (h : Hold) (hh : h ∈ s.reclaimable og) :
    h ∈ s.holds ∧ h.generation_when_retired < og := by
  unfold reclaimable at hh
  rcases List.mem_filter.mp hh with ⟨htake, hlt⟩
  exact ⟨List.mem_of_mem_take htake, by simpa using hlt⟩

end ArrayStore

/-! ## Lemmas on compaction -/

namespace ArrayStore

variable {T : Type}

theorem WF_remove (s : ArrayStore T) (r : EntryRef) (hwf : s.WF) : (s.remove r).WF := by
  unfold remove
  split
  · exact hwf
  · split
    · exact hwf
    · rename_i b hb
      split
      · exact hwf
      · rename_i slot hslot
        split
        · refine ⟨hwf.1, ?_⟩
          intro b1 hb1
          simp only at hb1
          rcases List.mem_or_eq_of_mem_set hb1 with hmem | rfl
          · exact hwf.2 b1 hmem
          · have := hwf.2 b (List.getElem?_mem hb)
            simpa [Buffer.mark_dead] using this
        · exact hwf

theorem open_target_spec (s s1 : ArrayStore T) (cls : Nat) (hwf : s.WF)
    (h : s.open_target cls = some s1) :
    s1.WF ∧ ∀ r v, s.get r = some v → s1.get r = some v := by
  unfold open_target at h
  split at h
  · simp only [Option.some.injEq] at h
    subst h
    refine ⟨⟨hwf.1, ?_⟩, ?_⟩
    · intro b hb
      simp only at hb
      rcases List.mem_append.mp hb with hmem | hmem
      · exact hwf.2 b hmem
      · rw [List.mem_singleton] at hmem
        subst hmem
        simp [ArrayStoreConfig.fresh_buffer]
    · intro r v hg
      unfold get at hg ⊢
      split at hg
      · rename_i hnull
        simpa [hnull] using hg
      · rename_i hnull
        simp only [hnull, if_false]
        split at hg
        · simp at hg
        · rename_i b0 hb0
          have hlt : r.buffer_id < s.buffers.length := by
            rcases List.getElem?_eq_some_iff.mp hb0 with ⟨hlt, _⟩
            exact hlt
          rw [List.getElem?_append_left hlt, hb0]
          exact hg
  · simp at h

theorem move_spec (s s2 : ArrayStore T) (ref nr : EntryRef) (hwf : s.WF)
    (h : s.move ref = some (nr, s2)) :
    s2.WF ∧ (∃ v, s.get ref = some v ∧ s2.get nr = some v) ∧
      ∀ r v, s.get r = some v → s2.get r = some v := by
  unfold move at h
  split at h
  · split at h
    · simp at h
    · rename_i v hv
      split at h
      · simp at h
      · rename_i r1 s1 hadd
        simp only [Option.some.injEq, Prod.mk.injEq] at h
        obtain ⟨rfl, rfl⟩ := h
        refine ⟨WF_remove s1 ref (WF_add s s1 v r1 hwf hadd), ⟨v, hv, ?_⟩, ?_⟩
        · exact get_remove s1 ref r1 v (get_add_new s s1 v r1 hwf hadd)
        · intro r w hg
          exact get_remove s1 ref r w (get_add_old s s1 v w r1 r hadd hg)
  · simp at h

/-- The compaction invariant: every reference that read `v` through `g0` reads
`v` in `s` after remapping. -/
theorem move_all_spec (g0 : EntryRef → Option (List T)) (refs : List EntryRef) :
    ∀ (s : ArrayStore T) (remap : EntryRef → EntryRef), s.WF →
      (∀ r v, g0 r = some v → s.get (remap r) = some v) →
      (s.move_all remap refs).1.WF ∧
        ∀ r v, g0 r = some v →
          (s.move_all remap refs).1.get ((s.move_all remap refs).2 r) = some v := by
  induction refs with
  | nil => intro s remap hwf hinv; exact ⟨hwf, hinv⟩
  | cons ref refs ih =>
    intro s remap hwf hinv
    unfold move_all
    split
    · exact ih s remap hwf hinv
    · rename_i nr s1 hmove
      obtain ⟨hwf1, ⟨v0, hv0, hnr⟩, hold⟩ := move_spec s s1 ref nr hwf hmove
      apply ih s1 _ hwf1
      intro r v hg
      have hrv := hinv r v hg
      by_cases hr : remap r = ref
      · simp only [hr, if_true]
        rw [hr, hv0] at hrv
        rw [← Option.some.inj hrv]
        exact hnr
      · simp only [hr, if_false]
        exact hold (remap r) v hrv

theorem compact_buffer_spec (g0 : EntryRef → Option (List T)) (s : ArrayStore T)
    (remap : EntryRef → EntryRef) (bid : Nat) (hwf : s.WF)
    (hinv : ∀ r v, g0 r = some v → s.get (remap r) = some v) :
    (s.compact_buffer remap bid).1.WF ∧
      ∀ r v, g0 r = some v →
        (s.compact_buffer remap bid).1.get ((s.compact_buffer remap bid).2 r) = some v := by
  unfold compact_buffer
  split
  · exact ⟨hwf, hinv⟩
  · rename_i b hb
    split
    · exact ⟨hwf, hinv⟩
    · rename_i s1 hopen
      obtain ⟨hwf1, hkeep⟩ := open_target_spec s s1 b.size_class hwf hopen
      exact move_all_spec g0 _ s1 remap hwf1 (fun r v hg => hkeep (remap r) v (hinv r v hg))

theorem compact_buffers_spec (g0 : EntryRef → Option (List T)) (bids : List Nat) :
    ∀ (s : ArrayStore T) (remap : EntryRef → EntryRef), s.WF →
      (∀ r v, g0 r = some v → s.get (remap r) = some v) →
      (s.compact_buffers remap bids).1.WF ∧
        ∀ r v, g0 r = some v →
          (s.compact_buffers remap bids).1.get ((s.compact_buffers remap bids).2 r) = some v := by
  induction bids with
  | nil => intro s remap hwf hinv; exact ⟨hwf, hinv⟩
  | cons bid bids ih =>
    intro s remap hwf hinv
    unfold compact_buffers
    obtain ⟨hwf1, hinv1⟩ := compact_buffer_spec g0 s remap bid hwf hinv
    exact ih _ _ hwf1 hinv1

theorem compact_worst_spec (select_worst : CompactionStrategy → ArrayStore T → List Nat)
    (strategy : CompactionStrategy) (s : ArrayStore T) (hwf : s.WF) :
    (s.compact_worst select_worst strategy).1.WF ∧
      ∀ r v, s.get r = some v →
        (s.compact_worst select_worst strategy).1.get
          ((s.compact_worst select_worst strategy).2 r) = some v :=
  compact_buffers_spec s.get (select_worst strategy s) s (fun r => r) hwf (fun _ _ hg => hg)

theorem example_retired_WF : example_retired._store.WF := by
  unfold WF
  decide

end ArrayStore

/-! ## Properties of hold-list management and compaction -/

namespace MultiValueMapping

variable {T : Type}

/-- C11: `reclaim_memory(oldest_used_gen)`, called with the oldest used generation
of the generation handler, destroys only entries whose hold is stamped with a
generation strictly older than `oldest_used_gen`; such a generation is strictly
older than the generation of every outstanding guard, so no entry with a hold
tagged `G` is destroyed while a guard reports a generation `< G`. -/
theorem reclaim_memory_safe (m : MultiValueMapping T) (h : GenerationHandler)
    (ref : EntryRef) (v : List T)
    (hbefore : m.getDataForIdx ref = some v)
    (hafter : (m.reclaim_memory ArrayStore.reclaim_memory
      h.get_oldest_used_generation).getDataForIdx ref = none) :
    ∃ hold ∈ m._store.holds, hold.ref = ref ∧
      hold.generation_when_retired < h.get_oldest_used_generation ∧
      ∀ g ∈ h.guards, hold.generation_when_retired < g := by
  by_cases hex : ∃ hold ∈ m._store.reclaimable h.get_oldest_used_generation, hold.ref = ref
  · obtain ⟨hold, hmem, href⟩ := hex
    obtain ⟨hin, hlt⟩ := ArrayStore.reclaimable_mem m._store _ hold hmem
    exact ⟨hold, hin, href, hlt, fun g hg =>
      Nat.lt_of_lt_of_le hlt (GenerationHandler.oldest_used_le_guard h g hg)⟩
  · exfalso
    have hall : ∀ hold ∈ m._store.reclaimable h.get_oldest_used_generation, hold.ref ≠ ref :=
      fun hold hmem href => hex ⟨hold, hmem, href⟩
    have hkeep := ArrayStore.get_foldl_destroy
      (m._store.reclaimable h.get_oldest_used_generation) m._store ref hall
    simp only [getDataForIdx, reclaim_memory, ArrayStore.get_reclaim_memory] at hbefore hafter
    rw [hkeep, hbefore] at hafter
    exact Option.noConfusion hafter

/-- With guards at generations 4 and 5, reclaiming `example_retired` destroys the
retired entry `[1,2]`, whose hold is stamped with 3. -/
theorem reclaim_memory_safe_witness :
    example_retired.getDataForIdx ⟨0, 1⟩ = some [1, 2] ∧
      (example_retired.reclaim_memory ArrayStore.reclaim_memory
        (GenerationHandler.mk 5 [4, 5]).get_oldest_used_generation).getDataForIdx ⟨0, 1⟩ = none ∧
      ∃ hold ∈ example_retired._store.holds, hold.ref = ⟨0, 1⟩ ∧
        hold.generation_when_retired < (GenerationHandler.mk 5 [4, 5]).get_oldest_used_generation ∧
        ∀ g ∈ (GenerationHandler.mk 5 [4, 5]).guards, hold.generation_when_retired < g :=
  ⟨by decide, by decide,
    reclaim_memory_safe example_retired (GenerationHandler.mk 5 [4, 5]) ⟨0, 1⟩ [1, 2]
      (by decide) (by decide)⟩

/-- C12: after `compact_worst(strategy)`, whatever buffers are selected, every
reference that was readable before reads the same values through its remapped
reference, and `get(id)` returns the same array as before for every id. -/
theorem compact_worst_preserves_values
    (select_worst : CompactionStrategy → ArrayStore T → List Nat)
    (strategy : CompactionStrategy) (m : MultiValueMapping T) (hwf : m._store.WF) :
    (∀ ref v, m.getDataForIdx ref = some v →
        (m.compact_worst select_worst strategy).getDataForIdx
          ((m._store.compact_worst select_worst strategy).2 ref) = some v) ∧
      ∀ docId v, m.get docId = some v →
        (m.compact_worst select_worst strategy).get docId = some v := by
  have hspec := (ArrayStore.compact_worst_spec select_worst strategy m._store hwf).2
  refine ⟨fun ref v hg => hspec ref v hg, ?_⟩
  intro docId v hg
  simp only [get, acquire_entry_ref, compact_worst, List.getElem?_map] at hg ⊢
  cases hidx : m._indices[docId]? with
  | none => simp [hidx] at hg
  | some ref =>
    simp only [hidx] at hg
    exact hspec ref v hg

/-- Compacting buffer 0 of `example_mapping` moves `[1,2]` to a new buffer and
switches identifier 0 to the new reference; every identifier reads as before. -/
theorem compact_worst_preserves_values_witness :
    example_mapping._store.WF ∧
      (example_mapping.compact_worst select_first CompactionStrategy.new)._indices =
        [⟨2, 1⟩, ⟨1, 1⟩, EntryRef.null] ∧
      ((∀ ref v, example_mapping.getDataForIdx ref = some v →
          (example_mapping.compact_worst select_first CompactionStrategy.new).getDataForIdx
            ((example_mapping._store.compact_worst select_first CompactionStrategy.new).2 ref) =
              some v) ∧
        ∀ docId v, example_mapping.get docId = some v →
          (example_mapping.compact_worst select_first CompactionStrategy.new).get docId =
            some v) :=
  ⟨ArrayStore.example_store_WF, by decide,
    compact_worst_preserves_values select_first CompactionStrategy.new example_mapping
      ArrayStore.example_store_WF⟩

/-- C14: `assign_generation(g)` and `reclaim_memory(g)` on the mapping are the
same call with the same `g` on the underlying store and leave the index array
unchanged. -/
theorem hold_list_pass_through
    (store_assign_generation store_reclaim_memory : ArrayStore T → Nat → ArrayStore T)
    (m : MultiValueMapping T) (g : Nat) :
    (m.assign_generation store_assign_generation g)._store = store_assign_generation m._store g ∧
      (m.assign_generation store_assign_generation g)._indices = m._indices ∧
      (m.reclaim_memory store_reclaim_memory g)._store = store_reclaim_memory m._store g ∧
      (m.reclaim_memory store_reclaim_memory g)._indices = m._indices :=
  ⟨rfl, rfl, rfl, rfl⟩

end MultiValueMapping

/-! ## Equality of `CompactionStrategy` -/

namespace Fp

theorem toRat_align (a : Bool) (m : Nat) (e1 e : Int) (he : e ≤ e1) :
    (if a then (-1 : ℚ) else 1) * (m : ℚ) * (2 : ℚ) ^ e1 =
      (((if a then -((m * 2 ^ (e1 - e).toNat : Nat) : Int)
          else ((m * 2 ^ (e1 - e).toNat : Nat) : Int)) : Int) : ℚ) * (2 : ℚ) ^ e := by
  have hsplit : e1 = ((e1 - e).toNat : Int) + e := by
    have := Int.toNat_of_nonneg (Int.sub_nonneg.mpr he)
    omega
  have hpow : (2 : ℚ) ^ e1 = (2 : ℚ) ^ (e1 - e).toNat * (2 : ℚ) ^ e := by
    conv_lhs => rw [hsplit]
    rw [zpow_add₀ (by norm_num : (2 : ℚ) ≠ 0), zpow_natCast]
  rw [hpow]
  cases a <;> simp <;> ring

theorem eq_iff_sameNumber (x y : Fp) : Fp.eq x y = true ↔ sameNumber x y := by
  cases x with
  | nan => cases y <;> simp [Fp.eq, sameNumber]
  | inf a => cases y <;> simp [Fp.eq, sameNumber]
  | fin a m1 e1 =>
    cases y with
    | nan => simp [Fp.eq, sameNumber]
    | inf b => simp [Fp.eq, sameNumber]
    | fin b m2 e2 =>
      simp only [Fp.eq, sameNumber, toRat, align, decide_eq_true_eq, Option.some.injEq]
      rw [toRat_align a m1 e1 (min e1 e2) (min_le_left _ _),
        toRat_align b m2 e2 (min e1 e2) (min_le_right _ _)]
      have hne : (2 : ℚ) ^ (min e1 e2) ≠ 0 := zpow_ne_zero _ (by norm_num)
      constructor
      · intro h
        rw [h]
      · intro h
        have := mul_right_cancel₀ hne h
        exact_mod_cast this

end Fp

/-- C15: `a == b` is true exactly when the max dead bytes ratio, the max dead
address space ratio, `max_buffers` and the active buffers ratio of `a` and `b`
are pairwise equal, the ratios being compared as numbers, and `a != b` is the
negation of `a == b`. -/
theorem eq_iff_fields_equal (a b : CompactionStrategy) :
    (a.eq b = true ↔
        (Fp.sameNumber a.getMaxDeadBytesRatio b.getMaxDeadBytesRatio ∧
          Fp.sameNumber a.getMaxDeadAddressSpaceRatio b.getMaxDeadAddressSpaceRatio ∧
          a.get_max_buffers = b.get_max_buffers ∧
          Fp.sameNumber a.get_active_buffers_ratio b.get_active_buffers_ratio)) ∧
      a.ne b = !a.eq b := by
  refine ⟨?_, rfl⟩
  simp only [CompactionStrategy.eq, getMaxDeadBytesRatio, getMaxDeadAddressSpaceRatio,
    get_max_buffers, get_active_buffers_ratio, Fp.floatToDouble, Bool.and_eq_true,
    decide_eq_true_eq, Fp.eq_iff_sameNumber]
  tauto

/-! ## Properties of `MessageTracker` and `BucketDBMetricUpdater` -/

namespace MessageTracker

variable {Cmd : Type}

/-- C16: `finished()` returns true exactly when the map of sent messages awaiting
a reply is empty, that is when no message id is tracked any more. -/
theorem finished_iff (t : MessageTracker Cmd) :
    (t.finished = true ↔ t._sentMessages = []) ∧
      (t.finished = true ↔ ∀ msgId : Nat, t._sentMessages.lookup msgId = none) := by
  unfold finished
  cases hs : t._sentMessages with
  | nil => simp
  | cons p ps =>
    obtain ⟨k, w⟩ := p
    simp only [List.isEmpty_cons, Bool.false_eq_true, false_iff]
    refine ⟨by simp, ?_⟩
    intro hall
    have := hall k
    simp [List.lookup] at this

end MessageTracker

namespace BucketDBMetricUpdater

variable {MemoryUsage MinReplicaMap Mode Entry : Type}

theorem hasCompletedRound_call (bodies : Bodies MemoryUsage MinReplicaMap Mode Entry)
    (u : BucketDBMetricUpdater MemoryUsage MinReplicaMap Mode) (c : Call MemoryUsage Mode Entry) :
    (call bodies u c).hasCompletedRound = (u.hasCompletedRound || c.isCompleteRound) := by
  cases c <;> simp [call, hasCompletedRound, Call.isCompleteRound, setMinimumReplicaCountingMode,
    visit, reset, completeRound, update_db_memory_usage]

theorem hasCompletedRound_calls (bodies : Bodies MemoryUsage MinReplicaMap Mode Entry)
    (cs : List (Call MemoryUsage Mode Entry)) :
    ∀ u : BucketDBMetricUpdater MemoryUsage MinReplicaMap Mode,
      (calls bodies u cs).hasCompletedRound = true ↔
        (u.hasCompletedRound = true ∨ ∃ c ∈ cs, c.isCompleteRound = true) := by
  induction cs with
  | nil => intro u; simp [calls]
  | cons c cs ih =>
    intro u
    have hstep : calls bodies u (c :: cs) = calls bodies (call bodies u c) cs := rfl
    rw [hstep, ih (call bodies u c), hasCompletedRound_call]
    simp only [Bool.or_eq_true, List.mem_cons, exists_eq_or_imp]
    tauto

/-- C17: `hasCompletedRound()` is false on a new updater, is left unchanged by
`setMinimumReplicaCountingMode`, `visit` and `reset`, and after any sequence of
calls on a new updater it is true if and only if `completeRound` is among
them. -/
theorem hasCompletedRound_iff (bodies : Bodies MemoryUsage MinReplicaMap Mode Entry)
    (u : BucketDBMetricUpdater MemoryUsage MinReplicaMap Mode) (mode : Mode) (e : Entry)
    (redundancy : Nat) (cs : List (Call MemoryUsage Mode Entry)) :
    (new bodies).hasCompletedRound = false ∧
      (u.setMinimumReplicaCountingMode mode).hasCompletedRound = u.hasCompletedRound ∧
      (u.visit bodies e redundancy).hasCompletedRound = u.hasCompletedRound ∧
      (u.reset bodies).hasCompletedRound = u.hasCompletedRound ∧
      ((calls bodies (new bodies) cs).hasCompletedRound = true ↔
        ∃ c ∈ cs, c.isCompleteRound = true) := by
  refine ⟨rfl, rfl, rfl, rfl, ?_⟩
  rw [hasCompletedRound_calls bodies cs (new bodies)]
  simp [new, hasCompletedRound]

end BucketDBMetricUpdater

/-! ## Properties of `FastOS_UNIX_File::MemoryMapPtr` -/

namespace FastOS_UNIX_File

theorem int64_of_size_t_le (x : Nat) : int64_of_size_t x ≤ (x : Int) := by
  unfold int64_of_size_t
  have h := Nat.mod_le x (2 ^ 64)
  split <;> omega

theorem int64_of_size_t_pos (x : Nat) (h : 0 < int64_of_size_t x) :
    int64_of_size_t x ≤ (x : Int) ∧ x % 2 ^ 64 < 2 ^ 63 := by
  refine ⟨int64_of_size_t_le x, ?_⟩
  unfold int64_of_size_t at h
  have hlt := Nat.mod_lt x (show 0 < 2 ^ 64 by decide)
  split at h
  · assumption
  · omega

/-- C21: when the file is memory mapped and `position < mmaplen` (the comparison
of the code, on `int64_t`), `MemoryMapPtr(position)` is the address
`mmapbase + position`; when the file is not mapped or `position >= mmaplen` it is
null.  For a length below `2 ^ 63` the conversion to `int64_t` is the length
itself. -/
theorem MemoryMapPtr_spec (f : FastOS_UNIX_File) (position : Int) :
    (f.IsMemoryMapped = true ∧ position < int64_of_size_t f._mmaplen →
        f.MemoryMapPtr position = ptr_add f._mmapbase position) ∧
      (f.IsMemoryMapped = false ∨ int64_of_size_t f._mmaplen ≤ position →
        f.MemoryMapPtr position = nullptr) ∧
      (f._mmaplen < 2 ^ 63 → int64_of_size_t f._mmaplen = (f._mmaplen : Int)) := by
  refine ⟨?_, ?_, ?_⟩
  · rintro ⟨hm, hp⟩
    simp only [IsMemoryMapped, decide_eq_true_eq] at hm
    simp [MemoryMapPtr, hm, hp]
  · intro h
    rcases h with hm | hp
    · simp only [IsMemoryMapped, decide_eq_false_iff_not, not_not] at hm
      simp [MemoryMapPtr, hm]
    · have hnot : ¬ position < int64_of_size_t f._mmaplen := not_lt.mpr hp
      simp [MemoryMapPtr, hnot]
  · intro h
    unfold int64_of_size_t
    have hmod : f._mmaplen % 2 ^ 64 = f._mmaplen := Nat.mod_eq_of_lt (by omega)
    rw [hmod, if_pos h]

/-- In `example_file`, position 10 maps to address 4106 and position 100, the
mapped length, maps to null. -/
theorem MemoryMapPtr_spec_witness :
    example_file.MemoryMapPtr 10 = 4106 ∧ example_file.MemoryMapPtr 100 = nullptr ∧
      int64_of_size_t example_file._mmaplen = 100 :=
  ⟨(MemoryMapPtr_spec example_file 10).1 ⟨by decide, by decide⟩,
    (MemoryMapPtr_spec example_file 100).2.1 (Or.inr (by decide)),
    (MemoryMapPtr_spec example_file 0).2.2 (by decide)⟩

/-- C22, as stated, fails: in `example_file` the position `-1` gives a non-null
pointer although `0 <= position` does not hold. -/
theorem MemoryMapPtr_negative_position :
    example_file.IsMemoryMapped = true ∧ example_file.MemoryMapPtr (-1) = 4095 ∧
      ¬ (example_file.MemoryMapPtr (-1) ≠ nullptr →
        0 ≤ (-1 : Int) ∧ (-1 : Int) < (example_file._mmaplen : Int)) := by
  decide

/-- C22, amended: if `MemoryMapPtr(position)` is non-null then the file is memory
mapped and `position < mmaplen`; if moreover `position >= 0` and the mapping
`[mmapbase, mmapbase + mmaplen)` lies in the 64-bit address space, the returned
address is `mmapbase + position` and lies inside that range. -/
theorem MemoryMapPtr_in_range (f : FastOS_UNIX_File) (position : Int)
    (hnn : f.MemoryMapPtr position ≠ nullptr) :
    f.IsMemoryMapped = true ∧ position < (f._mmaplen : Int) ∧
      (0 ≤ position → f._mmapbase + f._mmaplen ≤ 2 ^ 64 →
        (f.MemoryMapPtr position : Int) = (f._mmapbase : Int) + position ∧
          f._mmapbase ≤ f.MemoryMapPtr position ∧
          f.MemoryMapPtr position < f._mmapbase + f._mmaplen) := by
  by_cases hbase : f._mmapbase ≠ nullptr
  · by_cases hpos : position < int64_of_size_t f._mmaplen
    · have hptr : f.MemoryMapPtr position = ptr_add f._mmapbase position := by
        simp [MemoryMapPtr, hbase, hpos]
      rw [hptr]
      have hle := int64_of_size_t_le f._mmaplen
      refine ⟨by simpa [IsMemoryMapped] using hbase, by omega, ?_⟩
      intro h0 hfit
      have hval : (ptr_add f._mmapbase position : Int) = (f._mmapbase : Int) + position := by
        unfold ptr_add
        have hnonneg : (0 : Int) ≤ (f._mmapbase : Int) + position := by omega
        have hlt : (f._mmapbase : Int) + position < 2 ^ 64 := by
          have : ((f._mmapbase + f._mmaplen : Nat) : Int) ≤ 2 ^ 64 := by exact_mod_cast hfit
          push_cast at this
          omega
        rw [Int.toNat_of_nonneg (Int.emod_nonneg _ (by norm_num))]
        exact Int.emod_eq_of_lt hnonneg hlt
      refine ⟨hval, ?_, ?_⟩
      · have : (f._mmapbase : Int) ≤ (ptr_add f._mmapbase position : Int) := by omega
        exact_mod_cast this
      · have : (ptr_add f._mmapbase position : Int) < ((f._mmapbase + f._mmaplen : Nat) : Int) := by
          push_cast
          omega
        exact_mod_cast this
    · exact absurd (by simp [MemoryMapPtr, hpos]) hnn
  · exact absurd (by simp [MemoryMapPtr, hbase]) hnn

/-- In `example_file`, position 10 gives the non-null address 4106, inside the
mapped range. -/
theorem MemoryMapPtr_in_range_witness :
    example_file.MemoryMapPtr 10 ≠ nullptr ∧
      (example_file.IsMemoryMapped = true ∧ (10 : Int) < (example_file._mmaplen : Int) ∧
        (0 ≤ (10 : Int) → example_file._mmapbase + example_file._mmaplen ≤ 2 ^ 64 →
          (example_file.MemoryMapPtr 10 : Int) = (example_file._mmapbase : Int) + 10 ∧
            example_file._mmapbase ≤ example_file.MemoryMapPtr 10 ∧
            example_file.MemoryMapPtr 10 < example_file._mmapbase + example_file._mmaplen)) :=
  ⟨by decide, MemoryMapPtr_in_range example_file 10 (by decide)⟩

end FastOS_UNIX_File

/-! ## Further properties of `CompactionStrategy` and `consider_compact` -/

/-- C23: for every strategy and every `used_bytes`, `should_compact_memory` is
false whenever `dead_bytes < 65536`, and `should_compact_address_space` is false
whenever `dead_address_space < 65536`. -/
theorem below_slack_never_compacts (s : CompactionStrategy) (used dead : Nat)
    (h : dead < 65536) :
    s.should_compact_memory used dead = false ∧
      s.should_compact_address_space used dead = false := by
  have h1 : ¬ DEAD_BYTES_SLACK ≤ dead := by
    simp only [DEAD_BYTES_SLACK]
    omega
  have h2 : ¬ DEAD_ADDRESS_SPACE_SLACK ≤ dead := by
    simp only [DEAD_ADDRESS_SPACE_SLACK]
    omega
  simp [should_compact_memory, should_compact_address_space, h1, h2]

/-- A strategy with both ratios 0 does not compact 65535 dead bytes out of 65535
used ones. -/
theorem below_slack_never_compacts_witness :
    65535 < 65536 ∧
      ((CompactionStrategy.new2 Fp.zero Fp.zero).should_compact_memory 65535 65535 = false ∧
        (CompactionStrategy.new2 Fp.zero Fp.zero).should_compact_address_space 65535 65535 =
          false) :=
  ⟨by decide, below_slack_never_compacts (CompactionStrategy.new2 Fp.zero Fp.zero) 65535 65535
    (by decide)⟩

/-- C24: the flag returned by `consider_compact` is the same for any two
strategies on the same mapping. -/
theorem consider_compact_flag_independent {T : Type}
    (store_consider_compact : ArrayStore T → Bool)
    (compact_worst : CompactionStrategy → MultiValueMapping T → MultiValueMapping T)
    (m : MultiValueMapping T) (s1 s2 : CompactionStrategy) :
    (m.consider_compact store_consider_compact compact_worst s1).1 =
      (m.consider_compact store_consider_compact compact_worst s2).1 := by
  unfold MultiValueMapping.consider_compact
  cases store_consider_compact m._store <;> rfl

/-- C25: two strategies with the same max dead bytes ratio give the same
`should_compact_memory` for all arguments, and two strategies with the same max
dead address space ratio give the same `should_compact_address_space`. -/
theorem should_compact_depends_on_own_ratio (s1 s2 : CompactionStrategy) (used dead : Nat) :
    (s1.getMaxDeadBytesRatio = s2.getMaxDeadBytesRatio →
        s1.should_compact_memory used dead = s2.should_compact_memory used dead) ∧
      (s1.getMaxDeadAddressSpaceRatio = s2.getMaxDeadAddressSpaceRatio →
        s1.should_compact_address_space used dead =
          s2.should_compact_address_space used dead) := by
  constructor
  · intro h
    simp only [should_compact_memory, h]
  · intro h
    simp only [should_compact_address_space, h]

/-- The default strategy and one that shares only its max dead bytes ratio agree
on `should_compact_memory(2000000, 100001)`, which is true; one that shares only
its address-space ratio agrees on `should_compact_address_space(100000, 70000)`. -/
theorem should_compact_depends_on_own_ratio_witness :
    CompactionStrategy.new.should_compact_memory 2000000 100001 = true ∧
      (CompactionStrategy.new4 (Fp.nearestFloat 5 100) (Fp.nearestFloat 9 10) 7
          (Fp.nearestFloat 1 2)).should_compact_memory 2000000 100001 =
        CompactionStrategy.new.should_compact_memory 2000000 100001 ∧
      (CompactionStrategy.new4 (Fp.nearestFloat 9 10) (Fp.nearestFloat 2 10) 7
          (Fp.nearestFloat 1 2)).should_compact_address_space 100000 70000 =
        CompactionStrategy.new.should_compact_address_space 100000 70000 :=
  ⟨by decide,
    (should_compact_depends_on_own_ratio _ CompactionStrategy.new 2000000 100001).1 (by decide),
    (should_compact_depends_on_own_ratio _ CompactionStrategy.new 100000 70000).2 (by decide)⟩

namespace Fp

theorem eq_self_iff (x : Fp) : Fp.eq x x = true ↔ x ≠ Fp.nan := by
  cases x with
  | nan => simp [Fp.eq]
  | inf neg => simp [Fp.eq]
  | fin neg m e => simp [Fp.eq, align]

end Fp

/-- C27: for all ratios `a` and `b`, `CompactionStrategy(a, b)` has `max_buffers`
1 and active buffers ratio 0.1 and is the same object as
`CompactionStrategy(a, b, 1, 0.1)`; the two compare equal under `==` exactly
when neither `a` nor `b` is NaN; and `CompactionStrategy(0.05, 0.2) ==
CompactionStrategy()`. -/
theorem two_argument_constructor_defaults (a b : Fp) :
    (CompactionStrategy.new2 a b).get_max_buffers = 1 ∧
      (CompactionStrategy.new2 a b).get_active_buffers_ratio = Fp.nearestFloat 1 10 ∧
      CompactionStrategy.new2 a b =
        CompactionStrategy.new4 a b 1 (Fp.doubleToFloat (Fp.literal 1 10)) ∧
      ((CompactionStrategy.new2 a b).eq
          (CompactionStrategy.new4 a b 1 (Fp.doubleToFloat (Fp.literal 1 10))) = true ↔
        (a ≠ Fp.nan ∧ b ≠ Fp.nan)) ∧
      (CompactionStrategy.new2 (Fp.doubleToFloat (Fp.literal 5 100))
        (Fp.doubleToFloat (Fp.literal 2 10))).eq CompactionStrategy.new = true := by
  have hact : (CompactionStrategy.new2 a b).get_active_buffers_ratio = Fp.nearestFloat 1 10 := by
    have hlit : Fp.doubleToFloat (Fp.literal 1 10) = Fp.nearestFloat 1 10 := by decide
    simp only [CompactionStrategy.new2, get_active_buffers_ratio, Fp.floatToDouble, hlit]
  refine ⟨rfl, hact, rfl, ?_, by decide⟩
  have h01 : Fp.eq (Fp.doubleToFloat (Fp.literal 1 10)) (Fp.doubleToFloat (Fp.literal 1 10)) =
      true := by decide
  simp only [CompactionStrategy.eq, CompactionStrategy.new2, CompactionStrategy.new4,
    Bool.and_eq_true, decide_eq_true_eq, Fp.eq_self_iff, h01]
  tauto

/-! ## Rounding to nearest is monotone -/

theorem bitLenAux_zero (fuel : Nat) : bitLenAux fuel 0 = 0 := by
  cases fuel <;> simp [bitLenAux]

theorem bitLenAux_bounds (fuel : Nat) :
    ∀ n : Nat, n ≤ fuel → n ≠ 0 →
      2 ^ bitLenAux fuel n ≤ 2 * n ∧ n < 2 ^ bitLenAux fuel n := by
  induction fuel with
  | zero => intro n h0 hn; omega
  | succ fuel ih =>
    intro n hle hn
    have hstep : bitLenAux (fuel + 1) n = bitLenAux fuel (n / 2) + 1 := by
      simp [bitLenAux, hn]
    rw [hstep]
    by_cases h2 : n / 2 = 0
    · rw [h2, bitLenAux_zero]
      have : n = 1 := by omega
      subst this
      simp
    · have hle2 : n / 2 ≤ fuel := by omega
      obtain ⟨h1, h3⟩ := ih (n / 2) hle2 h2
      rw [pow_succ]
      constructor <;> omega

theorem bitLen_bounds (n : Nat) (hn : n ≠ 0) : 2 ^ bitLen n ≤ 2 * n ∧ n < 2 ^ bitLen n :=
  bitLenAux_bounds n n (Nat.le_refl n) hn

theorem two_zpow_pos (s : Int) : (0 : ℚ) < (2 : ℚ) ^ s := zpow_pos (by norm_num) s

theorem scale_snd_ne_zero (n d : Nat) (s : Int) (hd : d ≠ 0) : (scale n d s).2 ≠ 0 := by
  unfold scale
  split
  · simp [hd]
  · simpa using hd

theorem scale_val (n d : Nat) (s : Int) (hd : d ≠ 0) :
    ((scale n d s).1 : ℚ) / ((scale n d s).2 : ℚ) = (n : ℚ) / (d : ℚ) / (2 : ℚ) ^ s := by
  have hd0 : (d : ℚ) ≠ 0 := by exact_mod_cast hd
  have hp := (two_zpow_pos s).ne'
  unfold scale
  split
  · rename_i hs
    have hpow : ((2 : ℚ) ^ s.toNat) = (2 : ℚ) ^ s := by
      rw [← zpow_natCast, Int.toNat_of_nonneg hs]
    simp only [Nat.cast_mul, Nat.cast_pow, Nat.cast_ofNat, hpow]
    field_simp
  · rename_i hs
    have hneg : (0 : Int) ≤ -s := by omega
    have hpow : ((2 : ℚ) ^ (-s).toNat) = ((2 : ℚ) ^ s)⁻¹ := by
      rw [← zpow_natCast, Int.toNat_of_nonneg hneg, zpow_neg]
    simp only [Nat.cast_mul, Nat.cast_pow, Nat.cast_ofNat, hpow]
    rw [div_div, div_eq_mul_inv, div_eq_mul_inv, mul_inv]
    ring

theorem div_floor_bounds (N D : Nat) (hD : D ≠ 0) :
    ((N / D : Nat) : ℚ) ≤ (N : ℚ) / (D : ℚ) ∧ (N : ℚ) / (D : ℚ) < ((N / D : Nat) : ℚ) + 1 := by
  have hDq : (0 : ℚ) < (D : ℚ) := by exact_mod_cast Nat.pos_of_ne_zero hD
  have hsplit : (N : ℚ) = (D : ℚ) * ((N / D : Nat) : ℚ) + ((N % D : Nat) : ℚ) := by
    exact_mod_cast (Nat.div_add_mod N D).symm
  have hr : ((N % D : Nat) : ℚ) < (D : ℚ) := by
    exact_mod_cast Nat.mod_lt N (Nat.pos_of_ne_zero hD)
  have hr0 : (0 : ℚ) ≤ ((N % D : Nat) : ℚ) := by positivity
  constructor
  · exact (le_div_iff₀ hDq).mpr (by nlinarith)
  · exact (div_lt_iff₀ hDq).mpr (by nlinarith)

theorem rne_of_div (N D : Nat) (hD : D ≠ 0) :
    IsRNE ((N : ℚ) / (D : ℚ))
      (if 2 * (N % D) < D then N / D else if D < 2 * (N % D) then N / D + 1
        else if (N / D) % 2 = 0 then N / D else N / D + 1) := by
  have hDq : (0 : ℚ) < (D : ℚ) := by exact_mod_cast Nat.pos_of_ne_zero hD
  have hsplit : (N : ℚ) = (D : ℚ) * ((N / D : Nat) : ℚ) + ((N % D : Nat) : ℚ) := by
    exact_mod_cast (Nat.div_add_mod N D).symm
  have ht : (N : ℚ) / (D : ℚ) = ((N / D : Nat) : ℚ) + ((N % D : Nat) : ℚ) / (D : ℚ) := by
    rw [eq_comm, ← sub_eq_zero]
    field_simp
    linarith
  have hr0 : (0 : ℚ) ≤ ((N % D : Nat) : ℚ) := by positivity
  set q := N / D with hq
  set r := N % D with hr
  unfold IsRNE
  rw [ht]
  by_cases h1 : 2 * r < D
  · have h1q : 2 * (r : ℚ) < (D : ℚ) := by exact_mod_cast h1
    have hfrac : (r : ℚ) / (D : ℚ) < 1 / 2 := by
      rw [div_lt_iff₀ hDq]
      linarith
    have hfrac0 : (0 : ℚ) ≤ (r : ℚ) / (D : ℚ) := by positivity
    simp only [h1, if_true]
    refine ⟨by linarith, by linarith, ?_, ?_⟩
    · intro h; exfalso; linarith
    · intro h; exfalso; linarith
  · by_cases h2 : D < 2 * r
    · have h2q : (D : ℚ) < 2 * (r : ℚ) := by exact_mod_cast h2
      have hrD : (r : ℚ) < (D : ℚ) := by exact_mod_cast Nat.mod_lt N (Nat.pos_of_ne_zero hD)
      have hfrac : 1 / 2 < (r : ℚ) / (D : ℚ) := by
        rw [lt_div_iff₀ hDq]
        linarith
      have hfrac1 : (r : ℚ) / (D : ℚ) < 1 := by
        rw [div_lt_iff₀ hDq]
        linarith
      simp only [h1, h2, if_true, if_false]
      push_cast
      refine ⟨by linarith, by linarith, ?_, ?_⟩
      · intro h; exfalso; linarith
      · intro h; exfalso; linarith
    · have heq : D = 2 * r := by omega
      have heqq : (D : ℚ) = 2 * (r : ℚ) := by exact_mod_cast heq
      have hfrac : (r : ℚ) / (D : ℚ) = 1 / 2 := by
        rw [div_eq_iff hDq.ne']
        linarith
      simp only [h1, h2, if_false]
      rw [hfrac]
      by_cases h3 : q % 2 = 0
      · rw [if_pos h3]
        refine ⟨by linarith, by linarith, fun _ => h3, ?_⟩
        intro h; exfalso; linarith
      · rw [if_neg h3]
        push_cast
        refine ⟨by linarith, by linarith, ?_, fun _ => by omega⟩
        intro h; exfalso; linarith

theorem rne_mono (t t1 : ℚ) (m m1 : Nat) (ht : t ≤ t1) (h : IsRNE t m) (h1 : IsRNE t1 m1) :
    m ≤ m1 := by
  by_contra hlt
  have hlt1 : m1 + 1 ≤ m := by omega
  have hq : (m1 : ℚ) + 1 ≤ (m : ℚ) := by exact_mod_cast hlt1
  obtain ⟨ha, _, _, hd⟩ := h
  obtain ⟨_, hb1, hc1, _⟩ := h1
  have e1 : t = (m : ℚ) - 1 / 2 := by linarith
  have e2 : t1 = (m1 : ℚ) + 1 / 2 := by linarith
  have hm : (m : ℚ) = (m1 : ℚ) + 1 := by linarith
  have hmn : m = m1 + 1 := by exact_mod_cast hm
  have p1 := hd e1
  have p2 := hc1 e2
  omega

theorem roundRat_eq (f : Format) (neg : Bool) (n d : Nat) (hn : n ≠ 0) :
    roundRat f neg n d =
      roundFinish f neg
        (roundInt (scale n d (roundExponent f n d)).1 (scale n d (roundExponent f n d)).2)
        (roundExponent f n d) := by
  simp only [roundRat, hn, if_false, roundFinish, roundInt, roundExponent]

theorem roundRat_zero (f : Format) (neg : Bool) (d : Nat) :
    roundRat f neg 0 d = Fp.fin neg 0 f.emin := by
  simp [roundRat]

theorem nat_le_of_lt_add_half (a b : Nat) (h : (a : ℚ) < (b : ℚ) + 1 / 2) : a ≤ b := by
  by_contra hlt
  have h1 : b + 1 ≤ a := by omega
  have h2 : (b : ℚ) + 1 ≤ (a : ℚ) := by exact_mod_cast h1
  linarith

theorem nat_le_of_sub_half_le (a b : Nat) (h : (a : ℚ) - 1 / 2 ≤ (b : ℚ)) : a ≤ b := by
  by_contra hlt
  have h1 : b + 1 ≤ a := by omega
  have h2 : (b : ℚ) + 1 ≤ (a : ℚ) := by exact_mod_cast h1
  linarith

theorem two_zpow_prec (p : Nat) : (2 : ℚ) ^ (p : Int) = ((2 ^ p : Nat) : ℚ) := by
  rw [zpow_natCast]
  push_cast
  rfl

theorem two_zpow_prec_pred (p : Nat) (hp : 1 ≤ p) :
    (2 : ℚ) ^ ((p : Int) - 1) = ((2 ^ (p - 1) : Nat) : ℚ) := by
  have h : (p : Int) - 1 = ((p - 1 : Nat) : Int) := by omega
  rw [h, zpow_natCast]
  push_cast
  rfl

theorem two_zpow_succ (s : Int) : (2 : ℚ) ^ (s + 1) = 2 * (2 : ℚ) ^ s := by
  rw [zpow_add_one₀ (by norm_num : (2 : ℚ) ≠ 0)]
  ring

theorem two_zpow_mono (s t : Int) (h : s ≤ t) : (2 : ℚ) ^ s ≤ (2 : ℚ) ^ t :=
  zpow_le_zpow_right₀ (by norm_num) h

theorem rne_le_pow (f : Format) (t : ℚ) (m : Nat) (ht : t < (2 : ℚ) ^ (f.prec : Int))
    (h : IsRNE t m) : m ≤ 2 ^ f.prec := by
  apply nat_le_of_lt_add_half
  rw [← two_zpow_prec]
  have := h.1
  linarith

theorem rne_ge_pow (f : Format) (hp : 1 ≤ f.prec) (t : ℚ) (m : Nat)
    (ht : (2 : ℚ) ^ ((f.prec : Int) - 1) ≤ t) (h : IsRNE t m) : 2 ^ (f.prec - 1) ≤ m := by
  apply nat_le_of_sub_half_le
  rw [← two_zpow_prec_pred f.prec hp]
  have := h.2.1
  linarith

theorem roundsTo_mono (f : Format) (hp : 1 ≤ f.prec) (x y V W : ℚ) (hxy : x ≤ y)
    (hV : RoundsTo f x V) (hW : RoundsTo f y W) : V ≤ W := by
  obtain ⟨m, s, rfl, hs, hlt, hge, hr⟩ := hV
  obtain ⟨m1, s1, rfl, hs1, hlt1, hge1, hr1⟩ := hW
  have hpos := two_zpow_pos s
  have hpos1 := two_zpow_pos s1
  have hsplit : (2 : ℚ) ^ (f.prec : Int) = 2 * (2 : ℚ) ^ ((f.prec : Int) - 1) := by
    have := two_zpow_succ ((f.prec : Int) - 1)
    simpa using this
  have hpp := two_zpow_pos ((f.prec : Int) - 1)
  rcases lt_trichotomy s s1 with h | h | h
  · have hm : (m : ℚ) ≤ (2 : ℚ) ^ (f.prec : Int) := by
      rw [two_zpow_prec]
      exact_mod_cast rne_le_pow f _ m hlt hr
    have hne : s1 ≠ f.emin := by omega
    have hm1 : (2 : ℚ) ^ ((f.prec : Int) - 1) ≤ (m1 : ℚ) := by
      rw [two_zpow_prec_pred f.prec hp]
      exact_mod_cast rne_ge_pow f hp _ m1 (hge1.resolve_right hne) hr1
    have hstep : 2 * (2 : ℚ) ^ s ≤ (2 : ℚ) ^ s1 := by
      rw [← two_zpow_succ]
      exact two_zpow_mono _ _ (by omega)
    calc (m : ℚ) * (2 : ℚ) ^ s ≤ (2 : ℚ) ^ (f.prec : Int) * (2 : ℚ) ^ s :=
          mul_le_mul_of_nonneg_right hm hpos.le
      _ = (2 : ℚ) ^ ((f.prec : Int) - 1) * (2 * (2 : ℚ) ^ s) := by rw [hsplit]; ring
      _ ≤ (2 : ℚ) ^ ((f.prec : Int) - 1) * (2 : ℚ) ^ s1 := mul_le_mul_of_nonneg_left hstep hpp.le
      _ ≤ (m1 : ℚ) * (2 : ℚ) ^ s1 := mul_le_mul_of_nonneg_right hm1 hpos1.le
  · subst h
    have ht : x / (2 : ℚ) ^ s ≤ y / (2 : ℚ) ^ s := div_le_div_of_nonneg_right hxy hpos.le
    have hmm : (m : ℚ) ≤ (m1 : ℚ) := by exact_mod_cast rne_mono _ _ m m1 ht hr hr1
    exact mul_le_mul_of_nonneg_right hmm hpos.le
  · exfalso
    have hne : s ≠ f.emin := by omega
    have hx : (2 : ℚ) ^ ((f.prec : Int) - 1) * (2 : ℚ) ^ s ≤ x :=
      (le_div_iff₀ hpos).mp (hge.resolve_right hne)
    have hy : y < (2 : ℚ) ^ (f.prec : Int) * (2 : ℚ) ^ s1 := (div_lt_iff₀ hpos1).mp hlt1
    have hstep : 2 * (2 : ℚ) ^ s1 ≤ (2 : ℚ) ^ s := by
      rw [← two_zpow_succ]
      exact two_zpow_mono _ _ (by omega)
    have : (2 : ℚ) ^ (f.prec : Int) * (2 : ℚ) ^ s1 ≤
        (2 : ℚ) ^ ((f.prec : Int) - 1) * (2 : ℚ) ^ s := by
      rw [hsplit]
      calc 2 * (2 : ℚ) ^ ((f.prec : Int) - 1) * (2 : ℚ) ^ s1
          = (2 : ℚ) ^ ((f.prec : Int) - 1) * (2 * (2 : ℚ) ^ s1) := by ring
        _ ≤ (2 : ℚ) ^ ((f.prec : Int) - 1) * (2 : ℚ) ^ s := mul_le_mul_of_nonneg_left hstep hpp.le
    linarith

theorem ratio_bounds (n d : Nat) (hn : n ≠ 0) (hd : d ≠ 0) :
    (2 : ℚ) ^ ((bitLen n : Int) - (bitLen d : Int) - 1) ≤ (n : ℚ) / (d : ℚ) ∧
      (n : ℚ) / (d : ℚ) < (2 : ℚ) ^ ((bitLen n : Int) - (bitLen d : Int) + 1) := by
  obtain ⟨hB1, hB2⟩ := bitLen_bounds n hn
  obtain ⟨hC1, hC2⟩ := bitLen_bounds d hd
  have hBq1 : (2 : ℚ) ^ (bitLen n : Int) ≤ 2 * (n : ℚ) := by
    rw [two_zpow_prec]
    exact_mod_cast hB1
  have hBq2 : (n : ℚ) < (2 : ℚ) ^ (bitLen n : Int) := by
    rw [two_zpow_prec]
    exact_mod_cast hB2
  have hCq1 : (2 : ℚ) ^ (bitLen d : Int) ≤ 2 * (d : ℚ) := by
    rw [two_zpow_prec]
    exact_mod_cast hC1
  have hCq2 : (d : ℚ) < (2 : ℚ) ^ (bitLen d : Int) := by
    rw [two_zpow_prec]
    exact_mod_cast hC2
  have hd0 : (0 : ℚ) < (d : ℚ) := by exact_mod_cast Nat.pos_of_ne_zero hd
  have ha := two_zpow_pos (bitLen n : Int)
  have hc := two_zpow_pos (bitLen d : Int)
  have two_ne : (2 : ℚ) ≠ 0 := by norm_num
  have e1 : (2 : ℚ) ^ ((bitLen n : Int) - (bitLen d : Int) - 1) =
      (2 : ℚ) ^ (bitLen n : Int) / (2 : ℚ) ^ (bitLen d : Int) / 2 := by
    rw [zpow_sub₀ two_ne, zpow_sub₀ two_ne, zpow_one]
  have e2 : (2 : ℚ) ^ ((bitLen n : Int) - (bitLen d : Int) + 1) =
      (2 : ℚ) ^ (bitLen n : Int) / (2 : ℚ) ^ (bitLen d : Int) * 2 := by
    rw [zpow_add_one₀ two_ne, zpow_sub₀ two_ne]
  constructor
  · rw [e1, le_div_iff₀ hd0, div_div, div_mul_eq_mul_div, div_le_iff₀ (by positivity)]
    nlinarith
  · rw [e2, div_lt_iff₀ hd0, div_mul_eq_mul_div, div_mul_eq_mul_div, lt_div_iff₀ hc]
    nlinarith

theorem roundExponent_valid (f : Format) (n d : Nat) (hn : n ≠ 0) (hd : d ≠ 0) :
    f.emin ≤ roundExponent f n d ∧
      (n : ℚ) / (d : ℚ) / (2 : ℚ) ^ roundExponent f n d < (2 : ℚ) ^ (f.prec : Int) ∧
      ((2 : ℚ) ^ ((f.prec : Int) - 1) ≤ (n : ℚ) / (d : ℚ) / (2 : ℚ) ^ roundExponent f n d ∨
        roundExponent f n d = f.emin) := by
  obtain ⟨hlow, hupp⟩ := ratio_bounds n d hn hd
  have two_ne : (2 : ℚ) ≠ 0 := by norm_num
  unfold roundExponent
  set L : Int := (bitLen n : Int) - (bitLen d : Int) with hL
  set s0 : Int := max (L - f.prec) f.emin with hs0
  have hs0a : L - f.prec ≤ s0 := le_max_left _ _
  have hs0b : f.emin ≤ s0 := le_max_right _ _
  have hpos0 := two_zpow_pos s0
  obtain ⟨hq1, hq2⟩ := div_floor_bounds (scale n d s0).1 (scale n d s0).2
    (scale_snd_ne_zero n d s0 hd)
  rw [scale_val n d s0 hd] at hq1 hq2
  have hT_upper : (n : ℚ) / (d : ℚ) / (2 : ℚ) ^ s0 < (2 : ℚ) ^ ((f.prec : Int) + 1) := by
    have h1 : (n : ℚ) / (d : ℚ) / (2 : ℚ) ^ s0 < (2 : ℚ) ^ (L + 1) / (2 : ℚ) ^ s0 :=
      div_lt_div_of_pos_right hupp hpos0
    have h2 : (2 : ℚ) ^ (L + 1) / (2 : ℚ) ^ s0 = (2 : ℚ) ^ (L + 1 - s0) :=
      (zpow_sub₀ two_ne (L + 1) s0).symm
    have h3 : (2 : ℚ) ^ (L + 1 - s0) ≤ (2 : ℚ) ^ ((f.prec : Int) + 1) :=
      two_zpow_mono _ _ (by omega)
    linarith
  by_cases hc : 2 ^ f.prec ≤ (scale n d s0).1 / (scale n d s0).2
  · simp only [hc, if_true]
    have hcq : (2 : ℚ) ^ (f.prec : Int) ≤ (((scale n d s0).1 / (scale n d s0).2 : Nat) : ℚ) := by
      rw [two_zpow_prec]
      exact_mod_cast hc
    have hhalf : (n : ℚ) / (d : ℚ) / (2 : ℚ) ^ (s0 + 1) =
        (n : ℚ) / (d : ℚ) / (2 : ℚ) ^ s0 / 2 := by
      rw [two_zpow_succ]
      simp only [div_div]
      congr 1
      ring
    rw [hhalf]
    have hsplit : (2 : ℚ) ^ (f.prec : Int) = 2 * (2 : ℚ) ^ ((f.prec : Int) - 1) := by
      have := two_zpow_succ ((f.prec : Int) - 1)
      simpa using this
    have hsplit2 : (2 : ℚ) ^ ((f.prec : Int) + 1) = 2 * (2 : ℚ) ^ (f.prec : Int) :=
      two_zpow_succ _
    refine ⟨by omega, ?_, Or.inl ?_⟩
    · rw [div_lt_iff₀ (by norm_num : (0 : ℚ) < 2)]
      linarith
    · rw [le_div_iff₀ (by norm_num : (0 : ℚ) < 2)]
      linarith
  · simp only [hc, if_false]
    have hcq : (((scale n d s0).1 / (scale n d s0).2 : Nat) : ℚ) + 1 ≤ (2 : ℚ) ^ (f.prec : Int) := by
      rw [two_zpow_prec]
      have : (scale n d s0).1 / (scale n d s0).2 + 1 ≤ 2 ^ f.prec := by omega
      exact_mod_cast this
    refine ⟨hs0b, by linarith, ?_⟩
    by_cases he : s0 = f.emin
    · exact Or.inr he
    · left
      have hs0eq : s0 = L - f.prec := by
        rcases max_choice (L - (f.prec : Int)) f.emin with h | h
        · exact h
        · exact absurd h he
      have h1 : (2 : ℚ) ^ (L - 1) / (2 : ℚ) ^ s0 ≤ (n : ℚ) / (d : ℚ) / (2 : ℚ) ^ s0 :=
        div_le_div_of_nonneg_right hlow hpos0.le
      have h2 : (2 : ℚ) ^ (L - 1) / (2 : ℚ) ^ s0 = (2 : ℚ) ^ (L - 1 - s0) :=
        (zpow_sub₀ two_ne (L - 1) s0).symm
      have h3 : L - 1 - s0 = (f.prec : Int) - 1 := by omega
      rw [h2, h3] at h1
      exact h1

theorem roundInt_rne (N D : Nat) (hD : D ≠ 0) : IsRNE ((N : ℚ) / (D : ℚ)) (roundInt N D) :=
  rne_of_div N D hD

theorem roundRat_roundsTo (f : Format) (n d : Nat) (hn : n ≠ 0) (hd : d ≠ 0) :
    RoundsTo f ((n : ℚ) / (d : ℚ))
      ((roundInt (scale n d (roundExponent f n d)).1 (scale n d (roundExponent f n d)).2 : ℚ) *
        (2 : ℚ) ^ roundExponent f n d) := by
  obtain ⟨h1, h2, h3⟩ := roundExponent_valid f n d hn hd
  refine ⟨_, _, rfl, h1, h2, h3, ?_⟩
  rw [← scale_val n d _ hd]
  exact roundInt_rne _ _ (scale_snd_ne_zero n d _ hd)

theorem roundFinish_upper (f : Format) (m : Nat) (s : Int) :
    Fp.IsUpper (roundFinish f false m s) := by
  by_cases h1 : m = 2 ^ f.prec <;> by_cases h2 : f.emax < s + 1 <;>
    by_cases h3 : f.emax < s <;> simp [roundFinish, h1, h2, h3, Fp.IsUpper]

theorem roundFinish_ext (f : Format) (hp : 1 ≤ f.prec) (he : f.emin ≤ f.emax) (m : Nat) (s : Int)
    (hm : m ≤ 2 ^ f.prec) (hlow : 2 ^ (f.prec - 1) ≤ m ∨ s = f.emin) (_hs : f.emin ≤ s) :
    Fp.ext (roundFinish f false m s) =
      if (2 : ℚ) ^ ((f.prec : Int) + f.emax) ≤ (m : ℚ) * (2 : ℚ) ^ s then ⊤
      else (((m : ℚ) * (2 : ℚ) ^ s : ℚ) : WithTop ℚ) := by
  have two_ne : (2 : ℚ) ≠ 0 := by norm_num
  have hpos := two_zpow_pos s
  have hOmega : ∀ t : Int, (2 : ℚ) ^ ((f.prec : Int) + t) = (2 : ℚ) ^ (f.prec : Int) * (2 : ℚ) ^ t :=
    fun t => zpow_add₀ two_ne _ _
  have hsplit : (2 : ℚ) ^ (f.prec : Int) = 2 * (2 : ℚ) ^ ((f.prec : Int) - 1) := by
    have := two_zpow_succ ((f.prec : Int) - 1)
    simpa using this
  have hP := two_zpow_pos (f.prec : Int)
  have hPP := two_zpow_pos ((f.prec : Int) - 1)
  unfold roundFinish
  by_cases hmp : m = 2 ^ f.prec
  · have hmq : (m : ℚ) = (2 : ℚ) ^ (f.prec : Int) := by
      rw [two_zpow_prec]
      exact_mod_cast hmp
    simp only [if_pos hmp]
    by_cases ho : f.emax < s + 1
    · have hle : (2 : ℚ) ^ ((f.prec : Int) + f.emax) ≤ (m : ℚ) * (2 : ℚ) ^ s := by
        rw [hOmega, hmq]
        exact mul_le_mul_of_nonneg_left (two_zpow_mono _ _ (by omega)) hP.le
      rw [if_pos ho, if_pos hle]
      rfl
    · have hlt : ¬ (2 : ℚ) ^ ((f.prec : Int) + f.emax) ≤ (m : ℚ) * (2 : ℚ) ^ s := by
        rw [hOmega, hmq, not_le]
        have : (2 : ℚ) ^ s < (2 : ℚ) ^ f.emax :=
          zpow_lt_zpow_right₀ (by norm_num) (by omega)
        exact mul_lt_mul_of_pos_left this hP
      rw [if_neg ho, if_neg hlt]
      have hval : (if false = true then (-1 : ℚ) else 1) * ((2 ^ (f.prec - 1) : Nat) : ℚ) *
          (2 : ℚ) ^ (s + 1) = (m : ℚ) * (2 : ℚ) ^ s := by
        rw [← two_zpow_prec_pred f.prec hp, two_zpow_succ, hmq, hsplit]
        simp
        ring
      simp only [Fp.ext]
      rw [hval]
  · have hmlt : m < 2 ^ f.prec := by omega
    have hmq : (m : ℚ) < (2 : ℚ) ^ (f.prec : Int) := by
      rw [two_zpow_prec]
      exact_mod_cast hmlt
    simp only [if_neg hmp]
    by_cases ho : f.emax < s
    · have hne : s ≠ f.emin := by omega
      have hmge : (2 : ℚ) ^ ((f.prec : Int) - 1) ≤ (m : ℚ) := by
        rw [two_zpow_prec_pred f.prec hp]
        exact_mod_cast hlow.resolve_right hne
      have hle : (2 : ℚ) ^ ((f.prec : Int) + f.emax) ≤ (m : ℚ) * (2 : ℚ) ^ s := by
        have h1 : 2 * (2 : ℚ) ^ f.emax ≤ (2 : ℚ) ^ s := by
          rw [← two_zpow_succ]
          exact two_zpow_mono _ _ (by omega)
        have hE := two_zpow_pos f.emax
        calc (2 : ℚ) ^ ((f.prec : Int) + f.emax)
            = (2 : ℚ) ^ ((f.prec : Int) - 1) * (2 * (2 : ℚ) ^ f.emax) := by
              rw [hOmega, hsplit]; ring
          _ ≤ (2 : ℚ) ^ ((f.prec : Int) - 1) * (2 : ℚ) ^ s :=
              mul_le_mul_of_nonneg_left h1 hPP.le
          _ ≤ (m : ℚ) * (2 : ℚ) ^ s := mul_le_mul_of_nonneg_right hmge hpos.le
      simp [ho, hle, Fp.ext]
    · have hlt : ¬ (2 : ℚ) ^ ((f.prec : Int) + f.emax) ≤ (m : ℚ) * (2 : ℚ) ^ s := by
        rw [hOmega, not_le]
        have h1 : (2 : ℚ) ^ s ≤ (2 : ℚ) ^ f.emax := two_zpow_mono _ _ (by omega)
        calc (m : ℚ) * (2 : ℚ) ^ s < (2 : ℚ) ^ (f.prec : Int) * (2 : ℚ) ^ s :=
              mul_lt_mul_of_pos_right hmq hpos
          _ ≤ (2 : ℚ) ^ (f.prec : Int) * (2 : ℚ) ^ f.emax :=
              mul_le_mul_of_nonneg_left h1 hP.le
      simp [ho, hlt, Fp.ext]

theorem roundRat_upper (f : Format) (n d : Nat) : Fp.IsUpper (roundRat f false n d) := by
  by_cases hn : n = 0
  · subst hn
    rw [roundRat_zero]
    trivial
  · rw [roundRat_eq f false n d hn]
    exact roundFinish_upper f _ _

theorem roundRat_ext_spec (f : Format) (hp : 1 ≤ f.prec) (he : f.emin ≤ f.emax) (n d : Nat)
    (hd : d ≠ 0) :
    ∃ V : ℚ, RoundsTo f ((n : ℚ) / (d : ℚ)) V ∧
      Fp.ext (roundRat f false n d) =
        if (2 : ℚ) ^ ((f.prec : Int) + f.emax) ≤ V then ⊤ else ((V : ℚ) : WithTop ℚ) := by
  by_cases hn : n = 0
  · subst hn
    refine ⟨0, ⟨0, f.emin, by simp, le_refl _, ?_, Or.inr rfl, ?_⟩, ?_⟩
    · simp [two_zpow_pos (f.prec : Int)]
    · unfold IsRNE
      norm_num
    · have hpos := two_zpow_pos ((f.prec : Int) + f.emax)
      have hnot : ¬ (2 : ℚ) ^ ((f.prec : Int) + f.emax) ≤ 0 := not_le.mpr hpos
      rw [roundRat_zero]
      simp [Fp.ext, hnot]
  · obtain ⟨m, s, hV, hs, hlt, hge, hr⟩ := roundRat_roundsTo f n d hn hd
    refine ⟨_, roundRat_roundsTo f n d hn hd, ?_⟩
    rw [roundRat_eq f false n d hn]
    obtain ⟨h1, h2, h3⟩ := roundExponent_valid f n d hn hd
    have hrne : IsRNE ((n : ℚ) / (d : ℚ) / (2 : ℚ) ^ roundExponent f n d)
        (roundInt (scale n d (roundExponent f n d)).1 (scale n d (roundExponent f n d)).2) := by
      rw [← scale_val n d _ hd]
      exact roundInt_rne _ _ (scale_snd_ne_zero n d _ hd)
    apply roundFinish_ext f hp he _ _ (rne_le_pow f _ _ h2 hrne) _ h1
    rcases h3 with h3 | h3
    · exact Or.inl (rne_ge_pow f hp _ _ h3 hrne)
    · exact Or.inr h3

theorem roundRat_ext_mono (f : Format) (hp : 1 ≤ f.prec) (he : f.emin ≤ f.emax)
    (n d n1 d1 : Nat) (hd : d ≠ 0) (hd1 : d1 ≠ 0)
    (h : (n : ℚ) / (d : ℚ) ≤ (n1 : ℚ) / (d1 : ℚ)) :
    Fp.ext (roundRat f false n d) ≤ Fp.ext (roundRat f false n1 d1) := by
  obtain ⟨V, hV, hEV⟩ := roundRat_ext_spec f hp he n d hd
  obtain ⟨W, hW, hEW⟩ := roundRat_ext_spec f hp he n1 d1 hd1
  have hVW : V ≤ W := roundsTo_mono f hp _ _ V W h hV hW
  rw [hEV, hEW]
  by_cases hO : (2 : ℚ) ^ ((f.prec : Int) + f.emax) ≤ V
  · have hO1 : (2 : ℚ) ^ ((f.prec : Int) + f.emax) ≤ W := le_trans hO hVW
    simp [hO, hO1]
  · simp only [hO, if_false]
    split
    · exact le_top
    · exact WithTop.coe_le_coe.mpr hVW

namespace Fp

theorem lt_iff_ext (x y : Fp) (hx : IsUpper x) (hy : IsUpper y) :
    Fp.lt x y = true ↔ ext x < ext y := by
  cases x with
  | nan => exact absurd hx (by simp [IsUpper])
  | inf a =>
    have ha : a = false := hx
    subst ha
    cases y with
    | nan => exact absurd hy (by simp [IsUpper])
    | inf b => simp [Fp.lt, ext]
    | fin b m2 e2 => simp [Fp.lt, ext]
  | fin a m1 e1 =>
    cases y with
    | nan => exact absurd hy (by simp [IsUpper])
    | inf b =>
      have hb : b = false := hy
      subst hb
      simp only [Fp.lt, ext, Bool.not_false, true_iff]
      exact WithTop.coe_lt_top _
    | fin b m2 e2 =>
      simp only [Fp.lt, ext, align, decide_eq_true_eq, WithTop.coe_lt_coe]
      rw [toRat_align a m1 e1 (min e1 e2) (min_le_left _ _),
        toRat_align b m2 e2 (min e1 e2) (min_le_right _ _)]
      have hpos : (0 : ℚ) < (2 : ℚ) ^ (min e1 e2) := zpow_pos (by norm_num) _
      rw [mul_lt_mul_right hpos]
      exact Int.cast_lt.symm

theorem nonneg_cases (r : Fp) (h : Fp.le Fp.zero r = true) :
    r = Fp.inf false ∨ ∃ b m e, r = Fp.fin b m e ∧ (b = false ∨ m = 0) := by
  cases r with
  | nan => simp [Fp.le, Fp.lt, Fp.eq, Fp.zero] at h
  | inf b =>
    left
    cases b with
    | false => rfl
    | true => simp [Fp.le, Fp.lt, Fp.eq, Fp.zero] at h
  | fin b m e =>
    right
    refine ⟨b, m, e, rfl, ?_⟩
    cases b with
    | false => exact Or.inl rfl
    | true =>
      right
      simp only [Fp.le, Fp.lt, Fp.eq, Fp.zero, align, Bool.or_eq_true, decide_eq_true_eq,
        zero_mul, Nat.cast_zero, if_true, Bool.false_eq_true, if_false] at h
      have hnn : (0 : Int) ≤ ((m * 2 ^ (e - min 0 e).toNat : Nat) : Int) := Int.natCast_nonneg _
      have hz : ((m * 2 ^ (e - min 0 e).toNat : Nat) : Int) = 0 := by
        rcases h with h | h <;> omega
      have hz2 : m * 2 ^ (e - min 0 e).toNat = 0 := by exact_mod_cast hz
      rcases Nat.mul_eq_zero.mp hz2 with h0 | h0
      · exact h0
      · exact absurd h0 (by positivity)

end Fp

theorem dyadic_den_ne_zero (e : Int) : 2 ^ (-e).toNat ≠ 0 := by positivity

theorem dyadic_val (m : Nat) (e : Int) :
    ((m * 2 ^ e.toNat : Nat) : ℚ) / ((2 ^ (-e).toNat : Nat) : ℚ) = (m : ℚ) * (2 : ℚ) ^ e := by
  rcases le_or_lt 0 e with he | he
  · have h1 : (-e).toNat = 0 := by omega
    have hpow : ((2 : ℚ) ^ e.toNat) = (2 : ℚ) ^ e := by
      rw [← zpow_natCast, Int.toNat_of_nonneg he]
    rw [h1]
    push_cast
    rw [hpow]
    simp
  · have h1 : e.toNat = 0 := by omega
    have hneg : (0 : Int) ≤ -e := by omega
    have hpow : ((2 : ℚ) ^ (-e).toNat) = ((2 : ℚ) ^ e)⁻¹ := by
      rw [← zpow_natCast, Int.toNat_of_nonneg hneg, zpow_neg]
    rw [h1]
    push_cast
    rw [hpow]
    simp [div_eq_mul_inv]

theorem binary64_prec : 1 ≤ binary64.prec := by decide

theorem binary64_range : binary64.emin ≤ binary64.emax := by decide

namespace Fp

theorem ofSizeT_upper (n : Nat) : IsUpper (ofSizeT n) := roundRat_upper binary64 n 1

theorem ofSizeT_mono (n n1 : Nat) (h : n ≤ n1) : ext (ofSizeT n) ≤ ext (ofSizeT n1) := by
  apply roundRat_ext_mono binary64 binary64_prec binary64_range n 1 n1 1 (by decide) (by decide)
  have : (n : ℚ) ≤ (n1 : ℚ) := by exact_mod_cast h
  simpa using this

theorem upper_cases (x : Fp) (hx : IsUpper x) :
    x = Fp.inf false ∨ ∃ b m e, x = Fp.fin b m e := by
  cases x with
  | nan => exact absurd hx (by simp [IsUpper])
  | inf a =>
    have ha : a = false := hx
    subst ha
    exact Or.inl rfl
  | fin b m e => exact Or.inr ⟨b, m, e, rfl⟩

theorem roundRat_false_cases (f : Format) (n d : Nat) :
    roundRat f false n d = Fp.inf false ∨ ∃ m e, roundRat f false n d = Fp.fin false m e := by
  by_cases hn : n = 0
  · subst hn
    exact Or.inr ⟨0, f.emin, roundRat_zero f false d⟩
  · rw [roundRat_eq f false n d hn]
    generalize roundInt (scale n d (roundExponent f n d)).1
      (scale n d (roundExponent f n d)).2 = m
    generalize roundExponent f n d = s
    unfold roundFinish
    by_cases h : f.emax < (if m = 2 ^ f.prec then s + 1 else s)
    · exact Or.inl (if_pos h)
    · exact Or.inr ⟨_, _, if_neg h⟩

theorem ofSizeT_cases (n : Nat) :
    ofSizeT n = Fp.inf false ∨ ∃ m e, ofSizeT n = Fp.fin false m e :=
  roundRat_false_cases binary64 n 1

theorem lt_of_nan_or_inf (p y : Fp) (hp : p = Fp.nan ∨ p = Fp.inf false) :
    Fp.lt p y = false := by
  rcases hp with rfl | rfl <;> cases y <;> simp [Fp.lt]

theorem mul_inf_false (x : Fp) (hx : x = Fp.inf false ∨ ∃ m e, x = Fp.fin false m e) :
    mul x (Fp.inf false) = Fp.nan ∨ mul x (Fp.inf false) = Fp.inf false := by
  rcases hx with rfl | ⟨m, e, rfl⟩
  · exact Or.inr rfl
  · by_cases hm : m = 0 <;> simp [mul, hm]

theorem inf_false_mul (b : Bool) (m : Nat) (e : Int) (hbm : b = false ∨ m = 0) :
    mul (Fp.inf false) (Fp.fin b m e) = Fp.nan ∨
      mul (Fp.inf false) (Fp.fin b m e) = Fp.inf false := by
  by_cases hm : m = 0
  · simp [mul, hm]
  · have hb : b = false := hbm.resolve_right hm
    simp [mul, hm, hb]

/-- The product of the converted size with a non-negative finite ratio grows with
the size, as long as the converted size is finite. -/
theorem mul_ofSizeT_mono (b : Bool) (m : Nat) (e : Int) (hbm : b = false ∨ m = 0)
    (u1 u : Nat) (hu : u1 ≤ u) (mu : Nat) (eu : Int) (hfin : ofSizeT u = Fp.fin false mu eu) :
    IsUpper (mul (ofSizeT u1) (Fp.fin b m e)) ∧ IsUpper (mul (ofSizeT u) (Fp.fin b m e)) ∧
      ext (mul (ofSizeT u1) (Fp.fin b m e)) ≤ ext (mul (ofSizeT u) (Fp.fin b m e)) := by
  have hmono := ofSizeT_mono u1 u hu
  rcases ofSizeT_cases u1 with h1 | ⟨mu1, eu1, h1⟩
  · rw [h1, hfin] at hmono
    have htop : ext (Fp.inf false) = ⊤ := rfl
    rw [htop] at hmono
    exact absurd (top_le_iff.mp hmono) (WithTop.coe_ne_top)
  · rw [h1, hfin] at hmono ⊢
    simp only [ext, Bool.false_eq_true, if_false, one_mul, WithTop.coe_le_coe] at hmono
    simp only [mul, Bool.false_bne, roundDyadic]
    by_cases hm : m = 0
    · subst hm
      simp only [Nat.mul_zero, Nat.zero_mul, roundRat_zero]
      exact ⟨trivial, trivial, le_refl _⟩
    · have hb : b = false := hbm.resolve_right hm
      subst hb
      refine ⟨roundRat_upper _ _ _, roundRat_upper _ _ _, ?_⟩
      apply roundRat_ext_mono binary64 binary64_prec binary64_range _ _ _ _
        (dyadic_den_ne_zero _) (dyadic_den_ne_zero _)
      rw [dyadic_val, dyadic_val]
      have two_ne : (2 : ℚ) ≠ 0 := by norm_num
      rw [zpow_add₀ two_ne, zpow_add₀ two_ne]
      push_cast
      have hme : (0 : ℚ) ≤ (m : ℚ) * (2 : ℚ) ^ e := by positivity
      calc (mu1 : ℚ) * (m : ℚ) * ((2 : ℚ) ^ eu1 * (2 : ℚ) ^ e)
          = ((mu1 : ℚ) * (2 : ℚ) ^ eu1) * ((m : ℚ) * (2 : ℚ) ^ e) := by ring
        _ ≤ ((mu : ℚ) * (2 : ℚ) ^ eu) * ((m : ℚ) * (2 : ℚ) ^ e) :=
            mul_le_mul_of_nonneg_right hmono hme
        _ = (mu : ℚ) * (m : ℚ) * ((2 : ℚ) ^ eu * (2 : ℚ) ^ e) := by ring

end Fp

/-- C26: for a strategy whose max dead bytes ratio is non-negative (`ratio >= 0.0`
holds), if `should_compact_memory(used, dead)` is true then it is true for every
`used1 <= used` and `dead1 >= dead`. -/
theorem should_compact_memory_monotone (s : CompactionStrategy) (used dead used1 dead1 : Nat)
    (hratio : Fp.le Fp.zero s.getMaxDeadBytesRatio = true)
    (hused : used1 ≤ used) (hdead : dead ≤ dead1)
    (h : s.should_compact_memory used dead = true) :
    s.should_compact_memory used1 dead1 = true := by
  simp only [should_compact_memory, Bool.and_eq_true, decide_eq_true_eq, Fp.gt] at h ⊢
  obtain ⟨hslack, hlt⟩ := h
  refine ⟨Nat.le_trans hslack hdead, ?_⟩
  have hD := Fp.ofSizeT_upper dead
  have hD1 := Fp.ofSizeT_upper dead1
  have hDmono := Fp.ofSizeT_mono dead dead1 hdead
  rcases Fp.nonneg_cases _ hratio with hr | ⟨b, m, e, hr, hbm⟩
  · exfalso
    rw [hr, Fp.lt_of_nan_or_inf _ _ (Fp.mul_inf_false _ (Fp.ofSizeT_cases used))] at hlt
    exact Bool.noConfusion hlt
  · rw [hr] at hlt ⊢
    rcases Fp.ofSizeT_cases used with hu | ⟨mu, eu, hu⟩
    · exfalso
      rw [hu, Fp.lt_of_nan_or_inf _ _ (Fp.inf_false_mul b m e hbm)] at hlt
      exact Bool.noConfusion hlt
    · obtain ⟨hP1, hP, hPmono⟩ := Fp.mul_ofSizeT_mono b m e hbm used1 used hused mu eu hu
      rw [Fp.lt_iff_ext _ _ hP hD] at hlt
      rw [Fp.lt_iff_ext _ _ hP1 hD1]
      exact lt_of_le_of_lt hPmono (lt_of_lt_of_le hlt hDmono)

/-- The default strategy compacts at (2000000, 100001), hence at (1000000,
200000). -/
theorem should_compact_memory_monotone_witness :
    Fp.le Fp.zero CompactionStrategy.new.getMaxDeadBytesRatio = true ∧
      1000000 ≤ 2000000 ∧ 100001 ≤ 200000 ∧
      CompactionStrategy.new.should_compact_memory 2000000 100001 = true ∧
      CompactionStrategy.new.should_compact_memory 1000000 200000 = true :=
  ⟨by decide, by decide, by decide, by decide,
    should_compact_memory_monotone CompactionStrategy.new 2000000 100001 1000000 200000
      (by decide) (by decide) (by decide) (by decide)⟩

/-! ## The threshold tests in exact arithmetic -/

theorem roundsTo_unique (f : Format) (hp : 1 ≤ f.prec) (x V W : ℚ)
    (hV : RoundsTo f x V) (hW : RoundsTo f x W) : V = W :=
  le_antisymm (roundsTo_mono f hp x x V W (le_refl x) hV hW)
    (roundsTo_mono f hp x x W V (le_refl x) hW hV)

theorem isRNE_self (m : Nat) : IsRNE (m : ℚ) m := by
  unfold IsRNE
  refine ⟨by linarith, by linarith, ?_, ?_⟩ <;> intro h <;> exfalso <;> linarith

/-- A number of the format rounds to itself. -/
theorem roundsTo_self (f : Format) (hp : 1 ≤ f.prec) (M : Nat) (e : Int) (hM : M < 2 ^ f.prec)
    (he : f.emin ≤ e) : RoundsTo f ((M : ℚ) * (2 : ℚ) ^ e) ((M : ℚ) * (2 : ℚ) ^ e) := by
  have two_ne : (2 : ℚ) ≠ 0 := by norm_num
  by_cases h0 : M = 0
  · subst h0
    refine ⟨0, f.emin, by simp, le_refl _, ?_, Or.inr rfl, ?_⟩
    · simp
    · have h := isRNE_self 0
      simp only [Nat.cast_zero, zero_mul, zero_div] at h ⊢
      exact h
  · obtain ⟨hB1, hB2⟩ := bitLen_bounds M h0
    have hlen : bitLen M ≤ f.prec := by
      by_contra hc
      have h1 : f.prec + 1 ≤ bitLen M := by omega
      have h2 : 2 ^ (f.prec + 1) ≤ 2 ^ bitLen M := Nat.pow_le_pow_right (by norm_num) h1
      rw [pow_succ] at h2
      omega
    obtain ⟨k, hk⟩ : ∃ k : Nat, k = f.prec - bitLen M := ⟨_, rfl⟩
    have hsplitM : 2 ^ f.prec = 2 ^ bitLen M * 2 ^ k := by
      rw [← pow_add]
      congr 1
      omega
    obtain ⟨s, hs⟩ : ∃ s : Int, s = max (e - (k : Int)) f.emin := ⟨_, rfl⟩
    have hs1 : e - (k : Int) ≤ s := hs ▸ le_max_left _ _
    have hsmin : f.emin ≤ s := hs ▸ le_max_right _ _
    have hse : s ≤ e := hs ▸ max_le (by omega) he
    obtain ⟨j, hj⟩ : ∃ j : Nat, j = (e - s).toNat := ⟨_, rfl⟩
    have hjv : (j : Int) = e - s := by
      rw [hj]
      exact Int.toNat_of_nonneg (by omega)
    have hjk : j ≤ k := by omega
    have hpow : (2 : ℚ) ^ e = (2 : ℚ) ^ j * (2 : ℚ) ^ s := by
      rw [← zpow_natCast, ← zpow_add₀ two_ne]
      congr 1
      omega
    have hpos := two_zpow_pos s
    have hx : (M : ℚ) * (2 : ℚ) ^ e / (2 : ℚ) ^ s = ((M * 2 ^ j : Nat) : ℚ) := by
      rw [hpow]
      push_cast
      field_simp
      ring
    have hltN : M * 2 ^ j < 2 ^ f.prec := by
      have h1 : 2 ^ j ≤ 2 ^ k := Nat.pow_le_pow_right (by norm_num) hjk
      have h2 : 0 < 2 ^ j := by positivity
      calc M * 2 ^ j < 2 ^ bitLen M * 2 ^ j := Nat.mul_lt_mul_of_pos_right hB2 h2
        _ ≤ 2 ^ bitLen M * 2 ^ k := Nat.mul_le_mul_left _ h1
        _ = 2 ^ f.prec := hsplitM.symm
    refine ⟨M * 2 ^ j, s, ?_, hsmin, ?_, ?_, ?_⟩
    · rw [hpow]
      push_cast
      ring
    · rw [hx, two_zpow_prec]
      exact_mod_cast hltN
    · by_cases hsm : s = f.emin
      · exact Or.inr hsm
      · left
        have hse2 : s = e - (k : Int) := by
          rcases max_choice (e - (k : Int)) f.emin with h | h
          · rw [hs, h]
          · exact absurd (hs.trans h) hsm
        have hjk2 : j = k := by omega
        rw [hx, two_zpow_prec_pred f.prec hp]
        have h1 : 2 ^ bitLen M * 2 ^ k ≤ 2 * M * 2 ^ k := Nat.mul_le_mul_right _ hB1
        have h2 : 2 ^ f.prec = 2 * 2 ^ (f.prec - 1) := by
          rw [← pow_succ']
          congr 1
          omega
        have h3 : 2 ^ (f.prec - 1) ≤ M * 2 ^ j := by
          rw [hjk2]
          have h4 : 2 * M * 2 ^ k = 2 * (M * 2 ^ k) := by ring
          omega
        exact_mod_cast h3
    · rw [hx]
      exact isRNE_self _

theorem roundsTo_le_two_zpow (f : Format) (hp : 1 ≤ f.prec) (x V : ℚ) (k : Int)
    (hk : f.emin ≤ k) (hx : x ≤ (2 : ℚ) ^ k) (hV : RoundsTo f x V) : V ≤ (2 : ℚ) ^ k := by
  have h1 := roundsTo_self f hp 1 k (Nat.one_lt_two_pow (by omega)) hk
  simp only [Nat.cast_one, one_mul] at h1
  exact roundsTo_mono f hp x _ V _ hx hV h1

/-- A quotient below a power of two inside the range of the format is rounded to
a finite number, the one `RoundsTo` describes. -/
theorem roundRat_fin_spec (f : Format) (hp : 1 ≤ f.prec) (he : f.emin ≤ f.emax) (n d : Nat)
    (hd : d ≠ 0) (k : Int) (hk1 : f.emin ≤ k) (hk2 : k < (f.prec : Int) + f.emax)
    (hx : (n : ℚ) / (d : ℚ) ≤ (2 : ℚ) ^ k) :
    ∃ (V : ℚ) (m : Nat) (e : Int), RoundsTo f ((n : ℚ) / (d : ℚ)) V ∧
      roundRat f false n d = Fp.fin false m e ∧ (m : ℚ) * (2 : ℚ) ^ e = V := by
  obtain ⟨V, hV, hext⟩ := roundRat_ext_spec f hp he n d hd
  have hVk := roundsTo_le_two_zpow f hp _ V k hk1 hx hV
  have hlt : (2 : ℚ) ^ k < (2 : ℚ) ^ ((f.prec : Int) + f.emax) :=
    zpow_lt_zpow_right₀ (by norm_num) hk2
  have hno : ¬ (2 : ℚ) ^ ((f.prec : Int) + f.emax) ≤ V := not_le.mpr (lt_of_le_of_lt hVk hlt)
  rw [if_neg hno] at hext
  rcases Fp.roundRat_false_cases f n d with h | ⟨m, e, h⟩
  · rw [h] at hext
    have htop : Fp.ext (Fp.inf false) = ⊤ := rfl
    rw [htop] at hext
    exact absurd hext.symm WithTop.coe_ne_top
  · refine ⟨V, m, e, hV, h, ?_⟩
    rw [h] at hext
    simp only [Fp.ext, Bool.false_eq_true, if_false, one_mul] at hext
    exact WithTop.coe_injective hext

theorem two_zpow_64 : (2 : ℚ) ^ (64 : Int) = ((2 ^ 64 : Nat) : ℚ) := two_zpow_prec 64

theorem two_zpow_24 : (2 : ℚ) ^ (24 : Int) = ((2 ^ 24 : Nat) : ℚ) := two_zpow_prec 24

namespace Fp

/-- Converting a `size_t` to `double` gives the finite number `RoundsTo`
describes. -/
theorem ofSizeT_spec (n : Nat) (hn : n < 2 ^ 64) :
    ∃ (U : ℚ) (m : Nat) (e : Int), RoundsTo binary64 (n : ℚ) U ∧
      ofSizeT n = Fp.fin false m e ∧ (m : ℚ) * (2 : ℚ) ^ e = U ∧ U ≤ (2 : ℚ) ^ (64 : Int) := by
  have hx : ((n : Nat) : ℚ) / ((1 : Nat) : ℚ) ≤ (2 : ℚ) ^ (64 : Int) := by
    rw [two_zpow_64, Nat.cast_one, div_one]
    exact_mod_cast hn.le
  obtain ⟨U, m, e, hU, hfin, hval⟩ := roundRat_fin_spec binary64 binary64_prec binary64_range n 1
    (by decide) 64 (by decide) (by decide) hx
  rw [Nat.cast_one, div_one] at hU hx
  exact ⟨U, m, e, hU, hfin, hval,
    roundsTo_le_two_zpow binary64 binary64_prec _ U 64 (by decide) hx hU⟩

/-- A `size_t` below `2 ^ 53` is converted to `double` exactly. -/
theorem roundsTo_natCast (n : Nat) (hn : n < 2 ^ 53) : RoundsTo binary64 (n : ℚ) (n : ℚ) := by
  have h := roundsTo_self binary64 binary64_prec n 0 hn (by decide)
  simpa using h

/-- The `double` product of two non-negative finite numbers of bounded size is
the finite number `RoundsTo` describes. -/
theorem mul_fin_spec (mu : Nat) (eu : Int) (m : Nat) (e : Int)
    (hU : (mu : ℚ) * (2 : ℚ) ^ eu ≤ (2 : ℚ) ^ (64 : Int))
    (hr : (m : ℚ) * (2 : ℚ) ^ e ≤ (2 : ℚ) ^ (128 : Int)) :
    ∃ (P : ℚ) (mp : Nat) (ep : Int),
      RoundsTo binary64 (((mu : ℚ) * (2 : ℚ) ^ eu) * ((m : ℚ) * (2 : ℚ) ^ e)) P ∧
      mul (Fp.fin false mu eu) (Fp.fin false m e) = Fp.fin false mp ep ∧
      (mp : ℚ) * (2 : ℚ) ^ ep = P := by
  have two_ne : (2 : ℚ) ≠ 0 := by norm_num
  have hval : (((mu * m) * 2 ^ (eu + e).toNat : Nat) : ℚ) / ((2 ^ (-(eu + e)).toNat : Nat) : ℚ) =
      ((mu : ℚ) * (2 : ℚ) ^ eu) * ((m : ℚ) * (2 : ℚ) ^ e) := by
    rw [dyadic_val, zpow_add₀ two_ne]
    push_cast
    ring
  have hr0 : (0 : ℚ) ≤ (m : ℚ) * (2 : ℚ) ^ e := by positivity
  have h64 : (0 : ℚ) ≤ (2 : ℚ) ^ (64 : Int) := (two_zpow_pos 64).le
  have hx : (((mu * m) * 2 ^ (eu + e).toNat : Nat) : ℚ) / ((2 ^ (-(eu + e)).toNat : Nat) : ℚ) ≤
      (2 : ℚ) ^ (192 : Int) := by
    rw [hval]
    have h192 : (2 : ℚ) ^ (192 : Int) = (2 : ℚ) ^ (64 : Int) * (2 : ℚ) ^ (128 : Int) := by
      rw [← zpow_add₀ two_ne]
      rfl
    rw [h192]
    exact mul_le_mul hU hr hr0 h64
  obtain ⟨P, mp, ep, hP, hfin, hPv⟩ := roundRat_fin_spec binary64 binary64_prec binary64_range
    ((mu * m) * 2 ^ (eu + e).toNat) (2 ^ (-(eu + e)).toNat) (dyadic_den_ne_zero _) 192
    (by decide) (by decide) hx
  rw [hval] at hP
  refine ⟨P, mp, ep, hP, ?_, hPv⟩
  simp only [mul, Bool.false_bne, roundDyadic]
  exact hfin

theorem lt_fin_iff (m1 : Nat) (e1 : Int) (m2 : Nat) (e2 : Int) :
    Fp.lt (Fp.fin false m1 e1) (Fp.fin false m2 e2) = true ↔
      (m1 : ℚ) * (2 : ℚ) ^ e1 < (m2 : ℚ) * (2 : ℚ) ^ e2 := by
  rw [lt_iff_ext (Fp.fin false m1 e1) (Fp.fin false m2 e2) trivial trivial]
  simp only [ext, Bool.false_eq_true, if_false, one_mul, WithTop.coe_lt_coe]

theorem float_ratio_le (m : Nat) (e : Int) (hm : m < 2 ^ 24) (he : e ≤ 104) :
    (m : ℚ) * (2 : ℚ) ^ e ≤ (2 : ℚ) ^ (128 : Int) := by
  have two_ne : (2 : ℚ) ≠ 0 := by norm_num
  have h1 : (m : ℚ) ≤ (2 : ℚ) ^ (24 : Int) := by
    rw [two_zpow_24]
    exact_mod_cast hm.le
  have h2 : (2 : ℚ) ^ e ≤ (2 : ℚ) ^ (104 : Int) := two_zpow_mono _ _ he
  have h128 : (2 : ℚ) ^ (128 : Int) = (2 : ℚ) ^ (24 : Int) * (2 : ℚ) ^ (104 : Int) := by
    rw [← zpow_add₀ two_ne]
    rfl
  rw [h128]
  exact mul_le_mul h1 h2 (two_zpow_pos e).le (two_zpow_pos 24).le

/-- The ratio test `dead > used * ratio` of the two threshold functions, for a
finite non-negative `float` ratio `m * 2 ^ e`: the two sizes are rounded to
`double`, the product is rounded to `double`, and the results are compared
exactly. -/
theorem ratio_test_rounded (used dead m : Nat) (e : Int) (hm : m < 2 ^ 24) (he : e ≤ 104)
    (hused : used < 2 ^ 64) (hdead : dead < 2 ^ 64) :
    Fp.gt (ofSizeT dead) (mul (ofSizeT used) (Fp.fin false m e)) = true ↔
      ∃ D U P : ℚ, RoundsTo binary64 (dead : ℚ) D ∧ RoundsTo binary64 (used : ℚ) U ∧
        RoundsTo binary64 (U * ((m : ℚ) * (2 : ℚ) ^ e)) P ∧ P < D := by
  obtain ⟨D, md, ed, hD, hDfin, hDv, _⟩ := ofSizeT_spec dead hdead
  obtain ⟨U, mu, eu, hU, hUfin, hUv, hU64⟩ := ofSizeT_spec used hused
  rw [← hUv] at hU64
  obtain ⟨P, mp, ep, hP, hPfin, hPv⟩ := mul_fin_spec mu eu m e hU64 (float_ratio_le m e hm he)
  rw [hUv] at hP
  have hcode : Fp.gt (ofSizeT dead) (mul (ofSizeT used) (Fp.fin false m e)) = true ↔ P < D := by
    rw [Fp.gt, hDfin, hUfin, hPfin, lt_fin_iff, hPv, hDv]
  rw [hcode]
  constructor
  · intro h
    exact ⟨D, U, P, hD, hU, hP, h⟩
  · rintro ⟨D1, U1, P1, hD1, hU1, hP1, h⟩
    have e1 : D1 = D := roundsTo_unique binary64 binary64_prec _ _ _ hD1 hD
    have e2 : U1 = U := roundsTo_unique binary64 binary64_prec _ _ _ hU1 hU
    subst e1 e2
    have e3 : P1 = P := roundsTo_unique binary64 binary64_prec _ _ _ hP1 hP
    subst e3
    exact h

/-- Whenever the ratio test succeeds on sizes below `2 ^ 53`, the exact
inequality `used * ratio < dead` holds. -/
theorem ratio_test_sound (used dead m : Nat) (e : Int) (hm : m < 2 ^ 24) (he : e ≤ 104)
    (hused : used < 2 ^ 53) (hdead : dead < 2 ^ 53)
    (h : Fp.gt (ofSizeT dead) (mul (ofSizeT used) (Fp.fin false m e)) = true) :
    (used : ℚ) * ((m : ℚ) * (2 : ℚ) ^ e) < (dead : ℚ) := by
  have hu64 : used < 2 ^ 64 := lt_trans hused (by norm_num)
  have hd64 : dead < 2 ^ 64 := lt_trans hdead (by norm_num)
  obtain ⟨D, U, P, hD, hU, hP, hlt⟩ := (ratio_test_rounded used dead m e hm he hu64 hd64).mp h
  have e1 : D = dead := roundsTo_unique binary64 binary64_prec _ _ _ hD (roundsTo_natCast dead hdead)
  have e2 : U = used := roundsTo_unique binary64 binary64_prec _ _ _ hU (roundsTo_natCast used hused)
  subst e1 e2
  by_contra hle
  have hle1 : (dead : ℚ) ≤ (used : ℚ) * ((m : ℚ) * (2 : ℚ) ^ e) := not_lt.mp hle
  have := roundsTo_mono binary64 binary64_prec _ _ _ _ hle1 (roundsTo_natCast dead hdead) hP
  linarith

/-- When the product `used * ratio` needs no rounding, the ratio test is the
exact inequality. -/
theorem ratio_test_exact (used dead m : Nat) (e : Int) (hm : m < 2 ^ 24) (he1 : -149 ≤ e)
    (he2 : e ≤ 104) (hused : used < 2 ^ 64) (hprod : used * m < 2 ^ 53) (hdead : dead < 2 ^ 53) :
    Fp.gt (ofSizeT dead) (mul (ofSizeT used) (Fp.fin false m e)) = true ↔
      (used : ℚ) * ((m : ℚ) * (2 : ℚ) ^ e) < (dead : ℚ) := by
  have hd64 : dead < 2 ^ 64 := lt_trans hdead (by norm_num)
  obtain ⟨D, md, ed, hD, hDfin, hDv, _⟩ := ofSizeT_spec dead hd64
  obtain ⟨U, mu, eu, hU, hUfin, hUv, hU64⟩ := ofSizeT_spec used hused
  have e1 : D = dead := roundsTo_unique binary64 binary64_prec _ _ _ hD (roundsTo_natCast dead hdead)
  have hUr : U * ((m : ℚ) * (2 : ℚ) ^ e) = ((used * m : Nat) : ℚ) * (2 : ℚ) ^ e := by
    by_cases h0 : m = 0
    · subst h0
      simp
    · have hle : used ≤ used * m := Nat.le_mul_of_pos_right used (Nat.pos_of_ne_zero h0)
      have hu53 : used < 2 ^ 53 := lt_of_le_of_lt hle hprod
      have e2 : U = used :=
        roundsTo_unique binary64 binary64_prec _ _ _ hU (roundsTo_natCast used hu53)
      rw [e2]
      push_cast
      ring
  have hself := roundsTo_self binary64 binary64_prec (used * m) e hprod
    (le_trans (by decide) he1)
  rw [ratio_test_rounded used dead m e hm he2 hused hd64]
  constructor
  · rintro ⟨D1, U1, P1, hD1, hU1, hP1, h⟩
    have e3 : D1 = D := roundsTo_unique binary64 binary64_prec _ _ _ hD1 hD
    have e4 : U1 = U := roundsTo_unique binary64 binary64_prec _ _ _ hU1 hU
    subst e3 e4
    rw [hUr] at hP1
    have e5 := roundsTo_unique binary64 binary64_prec _ _ _ hP1 hself
    have hcast : ((used * m : Nat) : ℚ) * (2 : ℚ) ^ e = (used : ℚ) * ((m : ℚ) * (2 : ℚ) ^ e) := by
      push_cast
      ring
    rw [← hcast, ← e5, ← e1]
    exact h
  · intro h
    refine ⟨D, U, ((used * m : Nat) : ℚ) * (2 : ℚ) ^ e, hD, hU, ?_, ?_⟩
    · rw [hUr]
      exact hself
    · rw [e1]
      have hcast : ((used * m : Nat) : ℚ) * (2 : ℚ) ^ e = (used : ℚ) * ((m : ℚ) * (2 : ℚ) ^ e) := by
        push_cast
        ring
      rw [hcast]
      exact h

end Fp

/-- C1, as stated with the exact product, fails: for the default strategy, whose
max dead bytes ratio is `13421773 * 2 ^ (-28)`, the rule
`dead_bytes >= DEAD_BYTES_SLACK` and `dead_bytes > used_bytes * ratio` holds at
`used_bytes = 2751463419`, `dead_bytes = 137573173`, the exact product being
`137573173 - 2 ^ (-28)`, but `should_compact_memory(2751463419, 137573173)` is
false: the `double` product is rounded up to `137573173`. -/
theorem should_compact_memory_not_exact_rule :
    ¬ (CompactionStrategy.new.should_compact_memory 2751463419 137573173 = true ↔
        DEAD_BYTES_SLACK ≤ 137573173 ∧
          ∃ r : ℚ, Fp.toRat CompactionStrategy.new.getMaxDeadBytesRatio = some r ∧
            (2751463419 : ℚ) * r < 137573173) := by
  have hcode : CompactionStrategy.new.should_compact_memory 2751463419 137573173 = false := by
    decide
  have hratio : CompactionStrategy.new.getMaxDeadBytesRatio = Fp.fin false 13421773 (-28) := by
    decide
  rw [hcode, hratio]
  intro h
  have hrule : DEAD_BYTES_SLACK ≤ 137573173 ∧
      ∃ r : ℚ, Fp.toRat (Fp.fin false 13421773 (-28)) = some r ∧
        (2751463419 : ℚ) * r < 137573173 := by
    refine ⟨by decide, _, rfl, ?_⟩
    norm_num
  exact Bool.noConfusion (h.mpr hrule)

/-- C1, amended: for a strategy whose max dead bytes ratio is the finite
non-negative `float` `m * 2 ^ e` and all `size_t` arguments,
`should_compact_memory(used_bytes, dead_bytes)` is true exactly when
`dead_bytes >= DEAD_BYTES_SLACK` and `P < D`, where `D` and `U` are `dead_bytes`
and `used_bytes` rounded to `double` and `P` is `U * ratio` rounded to `double`;
for sizes below `2 ^ 53` a true result implies the exact rule
`dead_bytes > used_bytes * ratio`; and when moreover `used_bytes * m < 2 ^ 53`,
so that the product needs no rounding, the result is true exactly when
`dead_bytes >= DEAD_BYTES_SLACK` and `dead_bytes > used_bytes * ratio`. -/
theorem should_compact_memory_rounded_rule (s : CompactionStrategy)
    (used_bytes dead_bytes m : Nat) (e : Int)
    (hratio : s.getMaxDeadBytesRatio = Fp.fin false m e)
    (hm : m < 2 ^ 24) (he1 : -149 ≤ e) (he2 : e ≤ 104)
    (hused : used_bytes < 2 ^ 64) (hdead : dead_bytes < 2 ^ 64) :
    (s.should_compact_memory used_bytes dead_bytes = true ↔
        DEAD_BYTES_SLACK ≤ dead_bytes ∧
          ∃ D U P : ℚ, RoundsTo binary64 (dead_bytes : ℚ) D ∧
            RoundsTo binary64 (used_bytes : ℚ) U ∧
            RoundsTo binary64 (U * ((m : ℚ) * (2 : ℚ) ^ e)) P ∧ P < D) ∧
      (used_bytes < 2 ^ 53 → dead_bytes < 2 ^ 53 →
        s.should_compact_memory used_bytes dead_bytes = true →
          DEAD_BYTES_SLACK ≤ dead_bytes ∧
            (used_bytes : ℚ) * ((m : ℚ) * (2 : ℚ) ^ e) < (dead_bytes : ℚ)) ∧
      (used_bytes * m < 2 ^ 53 → dead_bytes < 2 ^ 53 →
        (s.should_compact_memory used_bytes dead_bytes = true ↔
          DEAD_BYTES_SLACK ≤ dead_bytes ∧
            (used_bytes : ℚ) * ((m : ℚ) * (2 : ℚ) ^ e) < (dead_bytes : ℚ))) := by
  have hcode : s.should_compact_memory used_bytes dead_bytes = true ↔
      DEAD_BYTES_SLACK ≤ dead_bytes ∧
        Fp.gt (Fp.ofSizeT dead_bytes) (Fp.mul (Fp.ofSizeT used_bytes) (Fp.fin false m e)) =
          true := by
    simp only [should_compact_memory, hratio, Bool.and_eq_true, decide_eq_true_eq]
  refine ⟨?_, ?_, ?_⟩
  · rw [hcode, Fp.ratio_test_rounded used_bytes dead_bytes m e hm he2 hused hdead]
  · intro hu hd h
    obtain ⟨h1, h2⟩ := hcode.mp h
    exact ⟨h1, Fp.ratio_test_sound used_bytes dead_bytes m e hm he2 hu hd h2⟩
  · intro hp hd
    rw [hcode, Fp.ratio_test_exact used_bytes dead_bytes m e hm he1 he2 hused hp hd]

/-- The default strategy at `(2000000, 100001)`: its ratio is
`13421773 * 2 ^ (-28)`, and all hypotheses of the amended C1 hold. -/
theorem should_compact_memory_rounded_rule_witness :
    CompactionStrategy.new.getMaxDeadBytesRatio = Fp.fin false 13421773 (-28) ∧
      13421773 < 2 ^ 24 ∧ (-149 : Int) ≤ -28 ∧ (-28 : Int) ≤ 104 ∧
      2000000 < 2 ^ 64 ∧ 100001 < 2 ^ 64 ∧ 2000000 * 13421773 < 2 ^ 53 ∧ 100001 < 2 ^ 53 ∧
      CompactionStrategy.new.should_compact_memory 2000000 100001 = true ∧
      (CompactionStrategy.new.should_compact_memory 2000000 100001 = true ↔
        DEAD_BYTES_SLACK ≤ 100001 ∧
          (2000000 : ℚ) * ((13421773 : ℚ) * (2 : ℚ) ^ (-28 : Int)) < (100001 : ℚ)) :=
  ⟨by decide, by decide, by decide, by decide, by decide, by decide, by decide, by decide,
    by decide,
    by
      have h := (should_compact_memory_rounded_rule CompactionStrategy.new 2000000 100001
        13421773 (-28) (by decide) (by decide) (by decide) (by decide) (by decide)
        (by decide)).2.2 (by decide) (by decide)
      exact_mod_cast h⟩

/-- C4, as stated with the exact product, fails: for the default strategy, whose
max dead address space ratio is `13421773 * 2 ^ (-26)`, the rule
`dead >= DEAD_ADDRESS_SPACE_SLACK` and `dead > used * ratio` holds at
`used = 1342177275`, `dead = 268435459`, the exact product being
`268435459 - 2 ^ (-26)`, but `should_compact_address_space(1342177275, 268435459)`
is false: the `double` product is rounded up to `268435459`. -/
theorem should_compact_address_space_not_exact_rule :
    ¬ (CompactionStrategy.new.should_compact_address_space 1342177275 268435459 = true ↔
        DEAD_ADDRESS_SPACE_SLACK ≤ 268435459 ∧
          ∃ r : ℚ, Fp.toRat CompactionStrategy.new.getMaxDeadAddressSpaceRatio = some r ∧
            (1342177275 : ℚ) * r < 268435459) := by
  have hcode :
      CompactionStrategy.new.should_compact_address_space 1342177275 268435459 = false := by
    decide
  have hratio :
      CompactionStrategy.new.getMaxDeadAddressSpaceRatio = Fp.fin false 13421773 (-26) := by
    decide
  rw [hcode, hratio]
  intro h
  have hrule : DEAD_ADDRESS_SPACE_SLACK ≤ 268435459 ∧
      ∃ r : ℚ, Fp.toRat (Fp.fin false 13421773 (-26)) = some r ∧
        (1342177275 : ℚ) * r < 268435459 := by
    refine ⟨by decide, _, rfl, ?_⟩
    norm_num
  exact Bool.noConfusion (h.mpr hrule)

/-- C4, amended: for a strategy whose max dead address space ratio is the finite
non-negative `float` `m * 2 ^ e` and all `size_t` arguments,
`should_compact_address_space(used, dead)` is true exactly when
`dead >= DEAD_ADDRESS_SPACE_SLACK` and `P < D`, where `D` and `U` are `dead` and
`used` rounded to `double` and `P` is `U * ratio` rounded to `double`; for sizes
below `2 ^ 53` a true result implies the exact rule `dead > used * ratio`; and
when moreover `used * m < 2 ^ 53`, so that the product needs no rounding, the
result is true exactly when `dead >= DEAD_ADDRESS_SPACE_SLACK` and
`dead > used * ratio`: the memory rule with the address-space slack and ratio
substituted. -/
theorem should_compact_address_space_rounded_rule (s : CompactionStrategy)
    (used_address_space dead_address_space m : Nat) (e : Int)
    (hratio : s.getMaxDeadAddressSpaceRatio = Fp.fin false m e)
    (hm : m < 2 ^ 24) (he1 : -149 ≤ e) (he2 : e ≤ 104)
    (hused : used_address_space < 2 ^ 64) (hdead : dead_address_space < 2 ^ 64) :
    (s.should_compact_address_space used_address_space dead_address_space = true ↔
        DEAD_ADDRESS_SPACE_SLACK ≤ dead_address_space ∧
          ∃ D U P : ℚ, RoundsTo binary64 (dead_address_space : ℚ) D ∧
            RoundsTo binary64 (used_address_space : ℚ) U ∧
            RoundsTo binary64 (U * ((m : ℚ) * (2 : ℚ) ^ e)) P ∧ P < D) ∧
      (used_address_space < 2 ^ 53 → dead_address_space < 2 ^ 53 →
        s.should_compact_address_space used_address_space dead_address_space = true →
          DEAD_ADDRESS_SPACE_SLACK ≤ dead_address_space ∧
            (used_address_space : ℚ) * ((m : ℚ) * (2 : ℚ) ^ e) < (dead_address_space : ℚ)) ∧
      (used_address_space * m < 2 ^ 53 → dead_address_space < 2 ^ 53 →
        (s.should_compact_address_space used_address_space dead_address_space = true ↔
          DEAD_ADDRESS_SPACE_SLACK ≤ dead_address_space ∧
            (used_address_space : ℚ) * ((m : ℚ) * (2 : ℚ) ^ e) <
              (dead_address_space : ℚ))) := by
  have hcode : s.should_compact_address_space used_address_space dead_address_space = true ↔
      DEAD_ADDRESS_SPACE_SLACK ≤ dead_address_space ∧
        Fp.gt (Fp.ofSizeT dead_address_space)
          (Fp.mul (Fp.ofSizeT used_address_space) (Fp.fin false m e)) = true := by
    simp only [should_compact_address_space, hratio, Bool.and_eq_true, decide_eq_true_eq]
  refine ⟨?_, ?_, ?_⟩
  · rw [hcode,
      Fp.ratio_test_rounded used_address_space dead_address_space m e hm he2 hused hdead]
  · intro hu hd h
    obtain ⟨h1, h2⟩ := hcode.mp h
    exact ⟨h1, Fp.ratio_test_sound used_address_space dead_address_space m e hm he2 hu hd h2⟩
  · intro hp hd
    rw [hcode,
      Fp.ratio_test_exact used_address_space dead_address_space m e hm he1 he2 hused hp hd]

/-- The default strategy at `(100000, 70000)`: its address-space ratio is
`13421773 * 2 ^ (-26)`, and all hypotheses of the amended C4 hold. -/
theorem should_compact_address_space_rounded_rule_witness :
    CompactionStrategy.new.getMaxDeadAddressSpaceRatio = Fp.fin false 13421773 (-26) ∧
      13421773 < 2 ^ 24 ∧ (-149 : Int) ≤ -26 ∧ (-26 : Int) ≤ 104 ∧
      100000 < 2 ^ 64 ∧ 70000 < 2 ^ 64 ∧ 100000 * 13421773 < 2 ^ 53 ∧ 70000 < 2 ^ 53 ∧
      CompactionStrategy.new.should_compact_address_space 100000 70000 = true ∧
      (CompactionStrategy.new.should_compact_address_space 100000 70000 = true ↔
        DEAD_ADDRESS_SPACE_SLACK ≤ 70000 ∧
          (100000 : ℚ) * ((13421773 : ℚ) * (2 : ℚ) ^ (-26 : Int)) < (70000 : ℚ)) :=
  ⟨by decide, by decide, by decide, by decide, by decide, by decide, by decide, by decide,
    by decide,
    by
      have h := (should_compact_address_space_rounded_rule CompactionStrategy.new 100000 70000
        13421773 (-26) (by decide) (by decide) (by decide) (by decide) (by decide)
        (by decide)).2.2 (by decide) (by decide)
      exact_mod_cast h⟩

namespace Fp

/-- A normal binary32 number within half a unit in the last place of `t` is a
`float` nearest to `t`. -/
theorem isNearestFloat_of_half_ulp (M : Nat) (E : Int) (t : ℚ) (hM1 : 2 ^ 23 < M)
    (hM2 : M < 2 ^ 24) (hE1 : -149 ≤ E) (hE2 : E ≤ 104)
    (hclose : |(M : ℚ) * (2 : ℚ) ^ E - t| ≤ (2 : ℚ) ^ E / 2) :
    IsNearestFloat (Fp.fin false M E) t := by
  have two_ne : (2 : ℚ) ≠ 0 := by norm_num
  have hp := two_zpow_pos E
  refine ⟨⟨hM2, hE1, hE2⟩, (M : ℚ) * (2 : ℚ) ^ E, by simp [toRat], ?_⟩
  intro y w hy hw
  cases y with
  | nan => exact absurd hy (by simp [IsFloat])
  | inf b => exact absurd hy (by simp [IsFloat])
  | fin b m e =>
    obtain ⟨hm, _, _⟩ := hy
    simp only [toRat, Option.some.injEq] at hw
    have hq := two_zpow_pos e
    have key : w = (M : ℚ) * (2 : ℚ) ^ E ∨ (2 : ℚ) ^ E ≤ |w - (M : ℚ) * (2 : ℚ) ^ E| := by
      rcases lt_or_le e E with hlt | hle
      · right
        have hq2 : (2 : ℚ) ^ e ≤ (2 : ℚ) ^ E / 2 := by
          have h1 : (2 : ℚ) ^ (e + 1) ≤ (2 : ℚ) ^ E := two_zpow_mono _ _ (by omega)
          rw [two_zpow_succ] at h1
          linarith
        have hmq : (m : ℚ) ≤ 16777215 := by
          have : m ≤ 16777215 := by
            have h24 : (2 : Nat) ^ 24 = 16777216 := by norm_num
            omega
          exact_mod_cast this
        have hMq : (8388609 : ℚ) ≤ (M : ℚ) := by
          have : 8388609 ≤ M := by
            have h23 : (2 : Nat) ^ 23 = 8388608 := by norm_num
            omega
          exact_mod_cast this
        have hm0 : (0 : ℚ) ≤ (m : ℚ) := by positivity
        have hw1 : w ≤ (m : ℚ) * (2 : ℚ) ^ e := by
          rw [← hw]
          cases b
          · simp
          · have : (0 : ℚ) ≤ (m : ℚ) * (2 : ℚ) ^ e := by positivity
            simp only [if_true]
            linarith
        have hw2 : (m : ℚ) * (2 : ℚ) ^ e ≤ 16777215 * ((2 : ℚ) ^ E / 2) :=
          mul_le_mul hmq hq2 hq.le (by norm_num)
        have hv : 8388609 * (2 : ℚ) ^ E ≤ (M : ℚ) * (2 : ℚ) ^ E :=
          mul_le_mul_of_nonneg_right hMq hp.le
        have hd : (2 : ℚ) ^ E ≤ (M : ℚ) * (2 : ℚ) ^ E - w := by linarith
        rw [abs_sub_comm]
        exact le_trans hd (le_abs_self _)
      · obtain ⟨j, hj⟩ : ∃ j : Nat, (j : Int) = e - E := ⟨(e - E).toNat, Int.toNat_of_nonneg (by omega)⟩
        have hpow : (2 : ℚ) ^ e = (2 : ℚ) ^ j * (2 : ℚ) ^ E := by
          rw [← zpow_natCast, ← zpow_add₀ two_ne]
          congr 1
          omega
        obtain ⟨k, hk⟩ : ∃ k : Int, k = (if b then -1 else 1) * ((m * 2 ^ j : Nat) : Int) := ⟨_, rfl⟩
        have hwk : w = (k : ℚ) * (2 : ℚ) ^ E := by
          rw [← hw, hk, hpow]
          cases b <;> simp <;> ring
        by_cases hkM : k = (M : Int)
        · left
          rw [hwk, hkM]
          simp
        · right
          have h1 : (1 : Int) ≤ |k - (M : Int)| := Int.one_le_abs (sub_ne_zero.mpr hkM)
          have h2 : (1 : ℚ) ≤ |(k : ℚ) - (M : ℚ)| := by exact_mod_cast h1
          have h3 : w - (M : ℚ) * (2 : ℚ) ^ E = ((k : ℚ) - (M : ℚ)) * (2 : ℚ) ^ E := by
            rw [hwk]
            ring
          rw [h3, abs_mul, abs_of_pos hp]
          calc (2 : ℚ) ^ E = 1 * (2 : ℚ) ^ E := (one_mul _).symm
            _ ≤ |(k : ℚ) - (M : ℚ)| * (2 : ℚ) ^ E := mul_le_mul_of_nonneg_right h2 hp.le
    rcases key with h | h
    · rw [h]
    · have h1 := abs_sub_le w t ((M : ℚ) * (2 : ℚ) ^ E)
      rw [abs_sub_comm t] at h1
      linarith

end Fp

/-- C5: the default-constructed strategy has the `float` nearest to 0.05, namely
`13421773 * 2 ^ (-28)`, as max dead bytes ratio, the `float` nearest to 0.2,
namely `13421773 * 2 ^ (-26)`, as max dead address space ratio, `max_buffers` 1
and the `float` nearest to 0.1, namely `13421773 * 2 ^ (-27)`, as active buffers
ratio; both slack constants are 65536. -/
theorem default_strategy_values :
    CompactionStrategy.new.getMaxDeadBytesRatio = Fp.fin false 13421773 (-28) ∧
      CompactionStrategy.new.getMaxDeadAddressSpaceRatio = Fp.fin false 13421773 (-26) ∧
      CompactionStrategy.new.get_max_buffers = 1 ∧
      CompactionStrategy.new.get_active_buffers_ratio = Fp.fin false 13421773 (-27) ∧
      DEAD_BYTES_SLACK = 65536 ∧ DEAD_ADDRESS_SPACE_SLACK = 65536 ∧
      Fp.IsNearestFloat CompactionStrategy.new.getMaxDeadBytesRatio (5 / 100) ∧
      Fp.IsNearestFloat CompactionStrategy.new.getMaxDeadAddressSpaceRatio (2 / 10) ∧
      Fp.IsNearestFloat CompactionStrategy.new.get_active_buffers_ratio (1 / 10) := by
  have h1 : CompactionStrategy.new.getMaxDeadBytesRatio = Fp.fin false 13421773 (-28) := by
    decide
  have h2 : CompactionStrategy.new.getMaxDeadAddressSpaceRatio =
      Fp.fin false 13421773 (-26) := by
    decide
  have h3 : CompactionStrategy.new.get_active_buffers_ratio = Fp.fin false 13421773 (-27) := by
    decide
  refine ⟨h1, h2, by decide, h3, by decide, by decide, ?_, ?_, ?_⟩
  · rw [h1]
    apply Fp.isNearestFloat_of_half_ulp 13421773 (-28) _ (by norm_num) (by norm_num)
      (by norm_num) (by norm_num)
    rw [abs_le]
    constructor <;> norm_num
  · rw [h2]
    apply Fp.isNearestFloat_of_half_ulp 13421773 (-26) _ (by norm_num) (by norm_num)
      (by norm_num) (by norm_num)
    rw [abs_le]
    constructor <;> norm_num
  · rw [h3]
    apply Fp.isNearestFloat_of_half_ulp 13421773 (-27) _ (by norm_num) (by norm_num)
      (by norm_num) (by norm_num)
    rw [abs_le]
    constructor <;> norm_num

end Vespa
